import Mathlib

/-!
Shallow embedding of the retrieval-and-validation pipeline of the RepoStack
server (server/index.js): the budgeted file selector fetchRepoTreeAndFiles
and the answer-grounding validator of the /api/walkthrough handler.

JS strings are modelled as lists of characters; numbers that the code keeps
as integers are modelled as Nat; external collaborators (the GitHub file
store and the embedding service) are modelled as oracle functions passed in
as arguments.  All recursive functions are structurally recursive (with an
explicit fuel argument where the JS loop skips several characters at once)
so that every definition evaluates by kernel reduction on concrete input.
-/

namespace RepoStack

/-- JS strings are modelled as lists of characters. -/
abbrev Str := List Char

/-- Coerce a Lean string literal to the model type. -/
def strL (s : String) : Str := s.toList

/-- Whitespace characters removed by JS String.prototype.trim (ASCII part). -/
def wsB (c : Char) : Bool :=
  c = ' ' || c = '\t' || c = '\n' || c = '\r' || c = '\x0b' || c = '\x0c'

/-- Remove leading whitespace. -/
def trimLeftC (l : Str) : Str := l.dropWhile wsB

/-- Remove trailing whitespace. -/
def trimRightC (l : Str) : Str := (l.reverse.dropWhile wsB).reverse

/-- Model of JS String.prototype.trim. -/
def jsTrim (l : Str) : Str := trimRightC (trimLeftC l)

/-- Model of JS String.prototype.toLowerCase (ASCII letters). -/
def lowerC (l : Str) : Str := l.map Char.toLower

/-- Model of JS String.prototype.includes: substring test. -/
def isInfixB (pat : Str) : Str → Bool
  | [] => pat.isEmpty
  | c :: rest => pat.isPrefixOf (c :: rest) || isInfixB pat rest

/-- Fuel-driven count of non-overlapping left-to-right occurrences of pat,
modelling text.match(new RegExp(pat, g)) for a pattern without regex
metacharacters (question keywords consist of word characters only).
An empty pattern matches once at every position and once at the end,
exactly as the empty regex does. -/
def countOccF (pat : Str) : Nat → Str → Nat
  | 0, _ => 0
  | _ + 1, [] => if pat.isEmpty then 1 else 0
  | fuel + 1, c :: rest =>
    if pat.isEmpty then 1 + countOccF pat fuel rest
    else if pat.isPrefixOf (c :: rest) then
      1 + countOccF pat fuel ((c :: rest).drop pat.length)
    else countOccF pat fuel rest

/-- Occurrence count with sufficient fuel. -/
def countOcc (pat s : Str) : Nat := countOccF pat (s.length + 1) s

/-- Word characters of the JS regex classes (backslash-w and the complement
of backslash-W): ASCII letters, digits and underscore. -/
def wordC (c : Char) : Bool := c.isAlpha || c.isDigit || c = '_'

/-- Model of question.split on runs of non-word characters, as a scan whose
flag records whether a separator run is being consumed.  As in JS, a leading
or trailing separator run contributes an empty piece. -/
def swGo : Bool → Str → List Str
  | _, [] => [[]]
  | inSep, c :: rest =>
    if wordC c then ((swGo false rest).modifyHead (c :: ·))
    else if inSep then swGo true rest
    else [] :: swGo true rest

/-- Split on runs of non-word characters (JS split with the non-word regex). -/
def splitNonWord (l : Str) : List Str := swGo false l

/-- Keyword extraction of the relevance scorer: lower-case the question,
split on non-word runs, keep tokens longer than 3 characters. -/
def keywordsOf (q : Str) : List Str :=
  (splitNonWord (lowerC q)).filter (fun w => decide (3 < w.length))

/-- Model of answer.split on blank lines (runs of two or more newlines), as a
scan whose flag records whether a separator run is being consumed.  The JS
regex needs two consecutive newlines to start a separator and then greedily
eats the whole newline run. -/
def spGoB : Bool → Str → List Str
  | _, [] => [[]]
  | true, c :: rest =>
    if c = '\n' then spGoB true rest
    else (spGoB false rest).modifyHead (c :: ·)
  | false, [c] => [[c]]
  | false, c :: c2 :: rest =>
    if c = '\n' ∧ c2 = '\n' then [] :: spGoB true rest
    else (spGoB false (c2 :: rest)).modifyHead (c :: ·)

/-- Paragraph split of the prose scrub. -/
def splitParas (l : Str) : List Str := spGoB false l

/-- Model of Array.prototype.join with the blank-line separator. -/
def joinSep : List Str → Str
  | [] => []
  | [p] => p
  | p :: q :: l => p ++ '\n' :: '\n' :: joinSep (q :: l)

/-- Model of Array.from(new Set(xs)): keep the first occurrence of each
element, in order. -/
def dedupF (seen : List Str) : List Str → List Str
  | [] => []
  | x :: xs => if seen.contains x then dedupF seen xs else x :: dedupF (x :: seen) xs

/-- Characters of the file-like-token regex character class: ASCII letters,
digits, underscore, hyphen, dot and slash. -/
def tokC (c : Char) : Bool :=
  c.isAlpha || c.isDigit || c = '_' || c = '-' || c = '.' || c = '/'

/-- Recognised source-file extensions of the hallucination-scrub regex, in
the order of the regex alternation (the order matters: the engine commits to
the first alternative that matches). -/
def extAlts : List Str :=
  [strL "js", strL "jsx", strL "ts", strL "tsx", strL "py", strL "java",
   strL "go", strL "rb", strL "php", strL "rs", strL "c", strL "cpp",
   strL "cs", strL "json", strL "md", strL "html", strL "css"]

/-- First extension alternative that matches at the given position. -/
def extFind (l : Str) : Option Str := extAlts.find? (fun e => e.isPrefixOf l)

/-- Backtracking search for the dot of a file-like token: the greedy
character-class quantifier gives characters back one at a time, so candidate
dot positions are tried from high to low; at each dot the extension
alternatives are tried in order.  scanJ l k tries dot positions k down to 1
and reports the dot position and the matched extension. -/
def scanJ (l : Str) : Nat → Option (Nat × Str)
  | 0 => none
  | j + 1 =>
    match (if l[j + 1]? = some '.' then extFind (l.drop (j + 2)) else none) with
    | some e => some (j + 1, e)
    | none => scanJ l j

/-- Length of the file-like-token match starting exactly at the head of l,
or 0 if there is none.  The greedy run never extends past the first
non-class character, and the dot cannot sit at the end of the run, so dot
positions range over the interior of the run. -/
def matchLen (l : Str) : Nat :=
  let L := (l.takeWhile tokC).length
  match scanJ l (L - 1) with
  | some (d, e) => d + 1 + e.length
  | none => 0

/-- Fuel-driven global scan for file-like tokens, modelling
answerText.match of the file-like regex with the global flag: repeatedly
take the leftmost match and resume after it. -/
def scanToksF : Nat → Str → List Str
  | 0, _ => []
  | _ + 1, [] => []
  | fuel + 1, c :: rest =>
    let n := matchLen (c :: rest)
    if n = 0 then scanToksF fuel rest
    else (c :: rest).take n :: scanToksF fuel ((c :: rest).drop n)

/-- Global token scan with sufficient fuel. -/
def scanToks (l : Str) : List Str := scanToksF l.length l

/-- Model of u.replace of the trailing dot-extension with the empty string:
drop from the last dot onward, provided at least one non-dot character
follows that dot and a dot exists at all. -/
def stripExt (t : Str) : Str :=
  let post := t.reverse.takeWhile (fun c => decide (c ≠ '.'))
  if post.length = 0 ∨ post.length = t.length then t
  else t.take (t.length - post.length - 1)

/-- Newline test used by the paragraph-split separator run. -/
def nlB (c : Char) : Bool := c == '\n'

/-- Leftmost blank-line separator: splits l as pre, two newlines, suf at the
first position where two consecutive newlines occur. -/
def preSep : List Char → Option (List Char × List Char)
  | [] => none
  | [_] => none
  | c :: c2 :: rest =>
    if c = '\n' ∧ c2 = '\n' then some ([], rest)
    else (preSep (c2 :: rest)).map (fun pr => (c :: pr.1, pr.2))

/-- Structural facts of a paragraph list: every piece is separator-free,
only the last piece may end in a newline, only the first may start with
one, and only the outermost pieces may be empty. -/
def PiecesOk (ps : List Str) : Prop :=
  ∀ pre x suf, ps = pre ++ x :: suf →
    preSep x = none ∧
    (suf ≠ [] → x.getLast? ≠ some '\n') ∧
    (pre ≠ [] → x.head? ≠ some '\n') ∧
    (pre ≠ [] → suf ≠ [] → x ≠ [])

/-- Whole-piece whitespace test. -/
def allWsB (p : Str) : Bool := p.all wsB

/-- Drop trailing pieces satisfying the predicate. -/
def rdropAllWs (ps : List Str) : List Str := (ps.reverse.dropWhile allWsB).reverse

/-- Apply a function to the last element of a list. -/
def modifyLastF (f : Str → Str) (ps : List Str) : List Str :=
  (ps.reverse.modifyHead f).reverse

/-- Effect of jsTrim on a blank-line-joined list of pieces: drop the leading
all-whitespace pieces and trim the head piece on the left, then drop the
trailing all-whitespace pieces and trim the last piece on the right. -/
def trimPieces (ps : List Str) : List Str :=
  modifyLastF trimRightC (rdropAllWs ((ps.dropWhile allWsB).modifyHead trimLeftC))

/-! ## The budgeted selector (fetchRepoTreeAndFiles) -/

/-- Entry of the recursive git tree listing.  A missing size hint is
modelled as 0, matching the code's use of size-or-zero. -/
structure TreeEntry where
  path : Str
  kind : Str
  size : Nat
deriving DecidableEq

/-- Per-repository allow/deny path-substring rules. -/
structure Rules where
  whitelist : List Str
  blacklist : List Str
deriving DecidableEq

/-- Source-like file extensions accepted by the candidate filter. -/
def srcExts : List Str :=
  [strL ".js", strL ".ts", strL ".jsx", strL ".tsx", strL ".py", strL ".java",
   strL ".go", strL ".rs", strL ".c", strL ".cpp", strL ".cs", strL ".rb",
   strL ".php", strL ".json", strL ".md", strL ".html", strL ".css"]

/-- Vendor / build directory substrings skipped by default. -/
def skipPats : List Str :=
  [strL "node_modules/", strL "vendor/", strL "third_party/",
   strL "site-packages/", strL "dist/", strL "build/", strL "coverage/",
   strL ".pytest_cache/", strL ".venv/", strL "__pycache__/", strL ".git/"]

/-- The always-include dependency manifests, in Set insertion order. -/
def depFiles : List Str :=
  [strL "package.json", strL "requirements.txt", strL "pyproject.toml"]

/-- Rule evaluation for one path: whitelist match keeps, then blacklist
match drops, then the built-in vendor patterns drop, else keep. -/
def keptByRules (rules : Rules) (p : Str) : Bool :=
  if rules.whitelist.any (fun w => isInfixB w p) then true
  else if rules.blacklist.any (fun b => isInfixB b p) then false
  else !(skipPats.any (fun sp => isInfixB sp p))

/-- Candidate filter: blob entries with a recognised extension, then the
rule / vendor-pattern filter. -/
def candFilter (rules : Rules) (tree : List TreeEntry) : List TreeEntry :=
  (tree.filter (fun t =>
      (t.kind == strL "blob") && srcExts.any (fun e => e.isSuffixOf t.path))).filter
    (fun t => keptByRules rules t.path)

/-- Number of path segments: length of path.split on the separator. -/
def pDepth (p : Str) : Nat := p.count '/' + 1

/-- Comparator of the structural pre-sort: ascending depth, then descending
size hint.  Array.prototype.sort is stable (ES2019) and a stable sort with
respect to a total preorder has a unique result, so a stable insertion sort
models it exactly. -/
def structR (a b : TreeEntry) : Prop :=
  pDepth a.path < pDepth b.path ∨ (pDepth a.path = pDepth b.path ∧ b.size ≤ a.size)

instance : DecidableRel structR := fun a b => by unfold structR; infer_instance

/-- Structural pre-sort of the filtered candidates. -/
def sortStruct (l : List TreeEntry) : List TreeEntry := l.insertionSort structR

/-- A candidate whose content was fetched and scored. -/
structure Scored where
  path : Str
  content : Str
  bytes : Nat
  score : Nat
  semanticScore : Option Rat
  finalScore : Option Rat
deriving DecidableEq

/-- Marker appended when a fetched file is cut at the length ceiling. -/
def truncMarker : Str := strL "\n\n...TRUNCATED..."

/-- UTF-8 byte length (Buffer.byteLength of the content). -/
def utf8Len (s : Str) : Nat := (s.map Char.utf8Size).sum

/-- Path part of the lexical score: 10 per keyword occurring in the
lower-cased path, accumulated in keyword order as the loop does. -/
def lexScoreP (keywords : List Str) (pathLower : Str) : Nat :=
  keywords.foldl (fun s k => if isInfixB k pathLower then s + 10 else s) 0

/-- Lexical relevance score: the path loop, then the per-keyword capped
occurrence count over the lower-cased (possibly truncated) content. -/
def lexScore (keywords : List Str) (path content : Str) : Nat :=
  let pathLower := lowerC path
  let contentLower := lowerC content
  keywords.foldl (fun s k => s + min (countOcc k contentLower) 20)
    (lexScoreP keywords pathLower)

/-- Fetch and score one candidate; a failed fetch yields none and the
candidate is skipped. -/
def scoreOne (fetchC : Str → Option Str) (keywords : List Str)
    (item : TreeEntry) : Option Scored :=
  (fetchC item.path).map (fun content =>
    let truncated :=
      if 100000 < content.length then content.take 100000 ++ truncMarker
      else content
    { path := item.path, content := truncated, bytes := utf8Len truncated,
      score := lexScore keywords item.path truncated,
      semanticScore := none, finalScore := none })

/-- Comparator of the lexical ranking: descending score, ties broken by
shallower path (again modelled by a stable insertion sort). -/
def lexR (a b : Scored) : Prop :=
  b.score < a.score ∨ (a.score = b.score ∧ pDepth a.path ≤ pDepth b.path)

instance : DecidableRel lexR := fun a b => by unfold lexR; infer_instance

/-- Pure lexical ranking, used by the catch branch of the re-ranker and by
the branch that skips semantic re-ranking entirely. -/
def sortLex (l : List Scored) : List Scored := l.insertionSort lexR

/-- Blend of lexical score and semantic similarity.  The float literal 0.2
is modelled as the rational 1/5; no claim depends on this branch's numbers,
only on the failure branch being purely lexical. -/
def blend (f : Scored) (sim : Rat) : Scored :=
  { f with semanticScore := some sim,
           finalScore := some ((f.score : Rat) * (1 / 5) + sim * 100) }

/-- Comparator of the semantic ranking: descending final score, ties broken
by shallower path. -/
def finR (a b : Scored) : Prop :=
  b.finalScore.getD 0 < a.finalScore.getD 0 ∨
    (a.finalScore.getD 0 = b.finalScore.getD 0 ∧ pDepth a.path ≤ pDepth b.path)

instance : DecidableRel finR := fun a b => by unfold finR; infer_instance

/-- Re-ranking stage.  The embedding call and the cosine computation are
external collaborators, modelled by an oracle that either yields one
similarity per scored file or fails (none = any exception in the try block,
including a malformed response, which the catch turns into the pure lexical
sort).  A response with the wrong number of vectors also throws inside the
loop and lands in the same catch; the resulting order is the same lexical
one, which is all any claim relies on. -/
def rankScored (semAvail : Bool) (question : Str) (embedOut : Option (List Rat))
    (fs : List Scored) : List Scored :=
  if semAvail ∧ question ≠ [] ∧ fs ≠ [] then
    match embedOut with
    | some sims =>
      if sims.length = fs.length then (List.zipWith blend fs sims).insertionSort finR
      else sortLex fs
    | none => sortLex fs
  else sortLex fs

/-- File record of the retrieval result.  Entries admitted from the ranked
pass carry the truncation flag, byte size and score; entries admitted by the
manifest back-fill carry only path and content, as in the code. -/
structure RFile where
  path : Str
  content : Str
  truncated : Option Bool
  bytes : Option Nat
  score : Option Rat
deriving DecidableEq

/-- The selector output. -/
structure Retrieval where
  files : List RFile
  totalBytes : Nat
deriving DecidableEq

/-- Remove the first occurrence of pat (JS String.prototype.replace with an
empty replacement). -/
def replaceFirstDrop (pat : Str) : Str → Str
  | [] => []
  | c :: rest =>
    if pat.isPrefixOf (c :: rest) then (c :: rest).drop pat.length
    else c :: replaceFirstDrop pat rest

/-- Record admitted by the ranked pass: the truncation marker is stripped
from the content, and the recorded score is finalScore-or-score with JS
falsiness (a final score of exactly 0 falls back to the lexical score). -/
def mkRFile (f : Scored) : RFile :=
  let isTrunc := truncMarker.isSuffixOf f.content
  { path := f.path,
    content := if isTrunc then replaceFirstDrop truncMarker f.content else f.content,
    truncated := some isTrunc,
    bytes := some f.bytes,
    score := some (match f.finalScore with
      | some r => if r = 0 then (f.score : Rat) else r
      | none => (f.score : Rat)) }

/-- Ranked admission loop: stop (not skip) at the first candidate that would
exceed the file-count cap or the byte cap. -/
def admitLoop (maxFiles maxBytes : Nat) : List Scored → Retrieval → Retrieval
  | [], res => res
  | f :: rest, res =>
    if maxFiles ≤ res.files.length then res
    else if maxBytes < res.totalBytes + f.bytes then res
    else admitLoop maxFiles maxBytes rest
      { files := res.files ++ [mkRFile f], totalBytes := res.totalBytes + f.bytes }

/-- Manifest back-fill: fetch each dependency file not already present and
admit it if it exists and still fits the byte budget.  Note that only the
byte budget is checked here, not the file-count cap. -/
def depLoop (fetchD : Str → Option Str) (maxBytes : Nat) :
    List Str → Retrieval → Retrieval
  | [], res => res
  | dep :: rest, res =>
    if res.files.any (fun ff => ff.path == dep) then depLoop fetchD maxBytes rest res
    else
      match fetchD dep with
      | some content =>
        let bytes := utf8Len content
        let depFile : RFile :=
          { path := dep, content := content, truncated := none,
            bytes := none, score := none }
        if res.totalBytes + bytes ≤ maxBytes then
          depLoop fetchD maxBytes rest
            { files := res.files ++ [depFile],
              totalBytes := res.totalBytes + bytes }
        else depLoop fetchD maxBytes rest res
      | none => depLoop fetchD maxBytes rest res

/-- The budgeted selector.  The tree listing, the per-path content fetch of
the scoring pass and the direct manifest fetch of the back-fill are external
collaborators passed as arguments; maxFiles and maxBytes are the caps after
the code's defaulting (hence nonzero in every real call).  The guard on
scoredFiles models the scoring loop's break checks, which compare the caps
against the still-empty result accumulator and therefore either clear the
whole loop or let it run to completion. -/
def fetchRepoTreeAndFiles (tree : List TreeEntry) (rules : Rules) (question : Str)
    (fetchC fetchD : Str → Option Str) (semAvail : Bool)
    (embedOut : Option (List Rat)) (maxFiles maxBytes : Nat) : Retrieval :=
  let filteredCandidates := sortStruct (candFilter rules tree)
  let keywords := keywordsOf question
  let topCandidates := filteredCandidates.take 500
  let scoredFiles :=
    if maxFiles = 0 ∨ maxBytes = 0 then []
    else topCandidates.filterMap (scoreOne fetchC keywords)
  let ranked := rankScored semAvail question embedOut scoredFiles
  let afterRanked := admitLoop maxFiles maxBytes ranked { files := [], totalBytes := 0 }
  depLoop fetchD maxBytes depFiles afterRanked

/-! ## The answer-grounding validator (walkthrough handler) -/

/-- One reference of the model answer.  Elements that are not objects with a
string path are dropped by the validator's type checks; only well-formed
elements are modelled. -/
structure Reference where
  path : Str
  excerpt : Str
deriving DecidableEq

/-- The untrusted model answer.  A field the model omitted or returned with
the wrong type is modelled as none where the code coerces or guards it; a
truthy non-string answer makes the handler throw before any result is
emitted (surfaced as an error event), so the answer field models the
string-or-absent cases.  cannot_answer is true exactly when the model
explicitly returned boolean true. -/
structure ModelAnswer where
  answer : Option Str
  references : Option (List Reference)
  trace : List Str
  sources : Option (List Str)
  missing : Option (List Str)
  cannot_answer : Bool
  reason : Str
deriving DecidableEq

/-- The finalized walkthrough result. -/
structure WalkResult where
  answer : Option Str
  references : List Reference
  trace : List Str
  sources : List Str
  missing : List Str
  cannot_answer : Bool
  reason : Str
deriving DecidableEq

/-- Fixed reason of the empty-retrieval short circuit. -/
def emptyRetrievalReason : Str :=
  strL "No files could be fetched from GitHub (possible 403 rate limit, missing GITHUB_TOKEN for private repo, or invalid repository). Configure GITHUB_TOKEN and try again."

/-- Canonical reason supplied when the terminal cannot-answer state has no
reason from the model. -/
def noInfoReason : Str :=
  strL "The information required to answer this question is not present in the provided repository files."

/-- Replacement answer when the scrub removed every paragraph. -/
def scrubbedEmptyAnswer : Str :=
  strL "Some requested components or files are not present in this repository."

/-- Default reason noting that unverified file references were removed. -/
def scrubReasonNote : Str :=
  strL "Removed references to files not present in repository."

/-- Paths of the retrieval result, in retrieval order. -/
def availablePathsOf (fd : Retrieval) : List Str := fd.files.map (·.path)

/-- Step 3 on sources: drop every source that is not exactly a retrieved
path. -/
def filteredSources (fd : Retrieval) (m : ModelAnswer) : List Str :=
  (m.sources.getD []).filter (fun s => (availablePathsOf fd).contains s)

/-- Step 3 on references: drop every reference whose path is not exactly a
retrieved path. -/
def filteredRefs (fd : Retrieval) (m : ModelAnswer) : List Reference :=
  (m.references.getD []).filter (fun r => (availablePathsOf fd).contains r.path)

/-- Step 4: back-fill sources with up to five retrieved paths when the model
cited nothing grounded and did not declare cannot_answer. -/
def sourcesAfterBackfill (fd : Retrieval) (m : ModelAnswer) : List Str :=
  if (filteredSources fd m).length = 0 ∧ 0 < (availablePathsOf fd).length ∧
      m.cannot_answer ≠ true then
    (availablePathsOf fd).take (min 5 (availablePathsOf fd).length)
  else filteredSources fd m

/-- Step 5: synthesize one reference from the first source when all model
references were dropped and cannot_answer was not declared. -/
def refsAfterBackfill (fd : Retrieval) (m : ModelAnswer) : List Reference :=
  if (filteredRefs fd m).length = 0 ∧ 0 < (sourcesAfterBackfill fd m).length ∧
      m.cannot_answer ≠ true then
    match sourcesAfterBackfill fd m with
    | [] => filteredRefs fd m
    | s0 :: _ =>
      match fd.files.find? (fun f => f.path == s0) with
      | some first =>
        filteredRefs fd m ++ [{ path := first.path, excerpt := first.content.take 300 }]
      | none => filteredRefs fd m
  else filteredRefs fd m

/-- State threaded through the prose hallucination scrub. -/
structure ScrubSt where
  answer : Option Str
  missing : List Str
  cannot_answer : Bool
  reason : Str
deriving DecidableEq

/-- Deduplicating push onto the missing list. -/
def pushMissing (ms : List Str) (a : Str) : List Str :=
  if ms.contains a then ms else ms ++ [a]

/-- Paragraph filter of the scrub: keep a paragraph unless it mentions an
ungrounded token, with the defensive special case keeping a paragraph whose
trimmed content is itself a grounded path. -/
def keepPara (unknown : List Str) (avail : List Str) (p : Str) : Bool :=
  !(unknown.any (fun u => isInfixB u p)) || avail.contains (jsTrim p)

/-- Deduplicated file-like tokens of the text that are not grounded paths:
Array.from(new Set(answerText.match(regex))).filter(not available). -/
def unknownOf (avail : List Str) (t : Str) : List Str :=
  (dedupF [] (scanToks t)).filter (fun u => !(avail.contains u))

/-- Rejoined answer after dropping the paragraphs that mention an
ungrounded token. -/
def scrubJoined (avail : List Str) (t : Str) : Str :=
  jsTrim (joinSep ((splitParas t).filter (keepPara (unknownOf avail t) avail)))

/-- Step 7, the prose hallucination scrub: find file-like tokens in the
answer, and if any is ungrounded, drop the paragraphs that mention one,
replace a fully-scrubbed answer by a fixed sentence (forcing cannot_answer
to false), record the scrubbed tokens without their extension in missing,
and default the reason. -/
def scrubStep (avail : List Str) (st : ScrubSt) : ScrubSt :=
  let answerText := st.answer.getD []
  if answerText = [] then st
  else if unknownOf avail answerText = [] then st
  else
    { answer := some (if scrubJoined avail answerText = [] then scrubbedEmptyAnswer
        else scrubJoined avail answerText),
      missing := ((unknownOf avail answerText).map stripExt).foldl pushMissing st.missing,
      cannot_answer := if scrubJoined avail answerText = [] then false
        else st.cannot_answer,
      reason := if st.reason = [] then scrubReasonNote else st.reason }

/-- State handed to the prose scrub in the non-terminal branch: the answer
as returned by the model, the shape-normalized missing list, cannot_answer
already finalized to false and the reason defaulted to the empty string. -/
def preScrubSt (m : ModelAnswer) : ScrubSt :=
  { answer := m.answer, missing := m.missing.getD [],
    cannot_answer := false, reason := m.reason }

/-- Steps 2 to 7 of the validator, for a model answer that parsed as JSON.
The terminal branch mirrors the code: cannot_answer is finalized true when
the model declared it or when references are still empty and the answer is
empty or whitespace; the terminal result empties answer, references, trace
and missing but keeps sources, and defaults an absent reason.  Otherwise
cannot_answer is finalized false, an absent reason becomes the empty string,
and the prose scrub runs over the answer text. -/
def validateAnswer (fd : Retrieval) (m : ModelAnswer) : WalkResult :=
  if m.cannot_answer = true ∨
      (refsAfterBackfill fd m = [] ∧ (m.answer = none ∨ jsTrim (m.answer.getD []) = [])) then
    { answer := some [], references := [], trace := [],
      sources := sourcesAfterBackfill fd m, missing := [], cannot_answer := true,
      reason := if m.reason = [] then noInfoReason else m.reason }
  else
    { answer := (scrubStep (availablePathsOf fd) (preScrubSt m)).answer,
      references := refsAfterBackfill fd m, trace := m.trace,
      sources := sourcesAfterBackfill fd m,
      missing := (scrubStep (availablePathsOf fd) (preScrubSt m)).missing,
      cannot_answer := (scrubStep (availablePathsOf fd) (preScrubSt m)).cannot_answer,
      reason := (scrubStep (availablePathsOf fd) (preScrubSt m)).reason }

/-- Canonical result of the empty-retrieval short circuit. -/
def canonicalEmptyResult : WalkResult :=
  { answer := some [], references := [], trace := [], sources := [],
    missing := [], cannot_answer := true, reason := emptyRetrievalReason }

/-- The walkthrough pipeline after retrieval: short-circuit on an empty
retrieval, otherwise validate the model answer. -/
def walkthroughOf (fd : Retrieval) (m : ModelAnswer) : WalkResult :=
  if fd.files = [] then canonicalEmptyResult else validateAnswer fd m

/-! ## Concrete fixtures used by the witnesses -/

def emptyFd : Retrieval := { files := [], totalBytes := 0 }

def exFile : RFile :=
  { path := strL "main.js", content := strL "const a = 1;",
    truncated := some false, bytes := some 12, score := some 0 }

def exFd : Retrieval := { files := [exFile], totalBytes := 12 }

def exM : ModelAnswer :=
  { answer := some (strL "All logic lives in main.js."),
    references := some [⟨strL "main.js", strL "const"⟩],
    trace := [], sources := some [strL "main.js"], missing := some [],
    cannot_answer := false, reason := strL "" }

def exMTrue : ModelAnswer := { exM with cannot_answer := true }

/-- Fixtures of the concrete scoring witness. -/
def authEntry : TreeEntry :=
  { path := strL "auth/login.js", kind := strL "blob", size := 0 }

def authFetch : Str → Option Str :=
  fun p => if p == strL "auth/login.js" then some (strL "auth auth") else none

def authScored : Scored :=
  { path := strL "auth/login.js", content := strL "auth auth", bytes := 9,
    score := 12, semanticScore := none, finalScore := none }

/-- Fixtures of the tie-break scenario. -/
def noRules : Rules := { whitelist := [], blacklist := [] }

def deepEntry : TreeEntry := { path := strL "a/b.js", kind := strL "blob", size := 0 }

def shallowEntry : TreeEntry := { path := strL "c.js", kind := strL "blob", size := 0 }

def tieFetch : Str → Option Str := fun _ => some (strL "x")

def noDepFetch : Str → Option Str := fun _ => none

/-- The file admitted in the concrete tie-break scenario. -/
def cFile : RFile :=
  { path := strL "c.js", content := strL "x", truncated := some false,
    bytes := some 1, score := some 0 }

/-- Fixtures of the budget counterexample. -/
def cxEntry : TreeEntry := { path := strL "a.js", kind := strL "blob", size := 0 }

def cxFetch : Str → Option Str :=
  fun p => if p == strL "a.js" then some (strL "xx") else none

def cxDep : Str → Option Str :=
  fun p => if p == strL "package.json" then some (strL "yyyy") else none

/-! ## Validator lemmas -/

/-- Every source surviving the filter-and-backfill is a retrieved path. -/
theorem sourcesAfterBackfill_subset (fd : Retrieval) (m : ModelAnswer) :
    ∀ p ∈ sourcesAfterBackfill fd m, p ∈ availablePathsOf fd := by
  intro p hp
  unfold sourcesAfterBackfill at hp
  split at hp
  · exact List.mem_of_mem_take hp
  · unfold filteredSources at hp
    rcases List.mem_filter.1 hp with ⟨-, h2⟩
    simpa using h2

/-- The reference back-fill either leaves the filtered references alone or
appends one reference synthesized from a retrieved file. -/
theorem refsAfterBackfill_cases (fd : Retrieval) (m : ModelAnswer) :
    refsAfterBackfill fd m = filteredRefs fd m ∨
    ∃ first ∈ fd.files, refsAfterBackfill fd m =
      filteredRefs fd m ++ [{ path := first.path, excerpt := first.content.take 300 }] := by
  unfold refsAfterBackfill
  split
  · split
    · exact Or.inl rfl
    · split
      · rename_i first hfe
        exact Or.inr ⟨first, List.mem_of_find?_eq_some hfe, rfl⟩
      · exact Or.inl rfl
  · exact Or.inl rfl

/-- Every filtered reference cites a retrieved path. -/
theorem filteredRefs_subset (fd : Retrieval) (m : ModelAnswer) :
    ∀ x ∈ filteredRefs fd m, x.path ∈ availablePathsOf fd := by
  intro x hx
  unfold filteredRefs at hx
  rcases List.mem_filter.1 hx with ⟨-, h2⟩
  simpa using h2

/-- Every reference surviving the filter-and-backfill cites a retrieved
path. -/
theorem refsAfterBackfill_subset (fd : Retrieval) (m : ModelAnswer) :
    ∀ r ∈ refsAfterBackfill fd m, r.path ∈ availablePathsOf fd := by
  intro r hr
  rcases refsAfterBackfill_cases fd m with hc | ⟨first, hmem, hc⟩
  · rw [hc] at hr
    exact filteredRefs_subset fd m r hr
  · rw [hc] at hr
    rcases List.mem_append.1 hr with h | h
    · exact filteredRefs_subset fd m r h
    · have hre : r = { path := first.path, excerpt := first.content.take 300 } := by
        simpa using h
      subst hre
      exact List.mem_map.2 ⟨first, hmem, rfl⟩

/-- With a non-empty retrieval and no explicit cannot_answer from the model,
the back-fills guarantee a non-empty sources list. -/
theorem sourcesAfterBackfill_ne_nil (fd : Retrieval) (m : ModelAnswer)
    (h : fd.files ≠ []) (hca : m.cannot_answer = false) :
    sourcesAfterBackfill fd m ≠ [] := by
  have hpaths : availablePathsOf fd ≠ [] := by
    unfold availablePathsOf
    simpa using h
  unfold sourcesAfterBackfill
  split
  · rcases hl : availablePathsOf fd with - | ⟨p0, ps⟩
    · exact absurd hl hpaths
    · simp only [hl, ne_eq, List.take_eq_nil_iff, List.length_cons]
      push_neg
      constructor
      · omega
      · simp
  · rename_i hcond
    intro hnil
    apply hcond
    refine ⟨by simp [hnil], ?_, by simp [hca]⟩
    rcases hl : availablePathsOf fd with - | ⟨p0, ps⟩
    · exact absurd hl hpaths
    · simp [hl]

/-- With a non-empty retrieval and no explicit cannot_answer from the model,
the back-fills guarantee a non-empty references list. -/
theorem refsAfterBackfill_ne_nil (fd : Retrieval) (m : ModelAnswer)
    (h : fd.files ≠ []) (hca : m.cannot_answer = false) :
    refsAfterBackfill fd m ≠ [] := by
  have hsrc : sourcesAfterBackfill fd m ≠ [] := sourcesAfterBackfill_ne_nil fd m h hca
  unfold refsAfterBackfill
  split
  · split
    · rename_i hs
      exact absurd hs hsrc
    · rename_i s0 rest hs
      split
      · simp
      · rename_i hfe
        have hs0 : s0 ∈ availablePathsOf fd := by
          have hsub := sourcesAfterBackfill_subset fd m s0
          rw [hs] at hsub
          exact hsub (by simp)
        rcases List.mem_map.1 hs0 with ⟨f0, hf0, hf0p⟩
        have hfind : (fd.files.find? (fun f => f.path == s0)).isSome := by
          rw [List.find?_isSome]
          exact ⟨f0, hf0, by simp [hf0p]⟩
        rw [hfe] at hfind
        simp at hfind
  · rename_i hcond
    intro hnil
    apply hcond
    refine ⟨by simp [hnil], ?_, by simp [hca]⟩
    rcases hs : sourcesAfterBackfill fd m with - | ⟨s0, rest⟩
    · exact absurd hs hsrc
    · simp

/-- The scrub never turns a finalized-false cannot_answer flag back on. -/
theorem scrubStep_cannot_answer_false (avail : List Str) (st : ScrubSt)
    (h : st.cannot_answer = false) : (scrubStep avail st).cannot_answer = false := by
  unfold scrubStep
  dsimp only
  split
  · exact h
  · split
    · exact h
    · dsimp only
      split
      · rfl
      · exact h

/-- When the model declared cannot_answer, the sources back-fill is skipped
and the filtered sources pass through unchanged. -/
theorem sourcesAfterBackfill_of_ca (fd : Retrieval) (m : ModelAnswer)
    (h : m.cannot_answer = true) :
    sourcesAfterBackfill fd m = filteredSources fd m := by
  unfold sourcesAfterBackfill
  rw [if_neg]
  rintro ⟨-, -, hx⟩
  exact hx h

/-! ## Claim theorems: validator -/

/-- C3: whenever retrieval yields zero files, the walkthrough pipeline
bypasses the model entirely and emits, regardless of the model answer, the
canonical result: empty answer, empty references, empty trace, empty
sources, empty missing, cannot_answer true, and the non-empty fixed reason
naming the likely cause (rate limit, private repository without
credentials, or invalid repository). -/
theorem c3_empty_retrieval_short_circuit (fd : Retrieval) (m : ModelAnswer)
    (h : fd.files = []) :
    walkthroughOf fd m = canonicalEmptyResult ∧
    canonicalEmptyResult =
      { answer := some [], references := [], trace := [], sources := [],
        missing := [], cannot_answer := true, reason := emptyRetrievalReason } ∧
    emptyRetrievalReason ≠ [] := by
  refine ⟨?_, rfl, by decide⟩
  unfold walkthroughOf
  simp [h]

/-- Witness for C3 at a concrete empty retrieval and concrete model answer. -/
theorem c3_empty_retrieval_short_circuit_witness :
    emptyFd.files = [] ∧ walkthroughOf emptyFd exM = canonicalEmptyResult :=
  ⟨rfl, (c3_empty_retrieval_short_circuit emptyFd exM rfl).1⟩

/-- C1: grounding invariant — for every validated answer over a non-empty
retrieval, every path in the final sources and every path field of the
final references is exactly one of the retrieved file paths, including the
paths introduced by the sources and reference back-fill steps. -/
theorem c1_grounding_invariant (fd : Retrieval) (m : ModelAnswer)
    (h : fd.files ≠ []) :
    (∀ p ∈ (validateAnswer fd m).sources, p ∈ availablePathsOf fd) ∧
    (∀ r ∈ (validateAnswer fd m).references, r.path ∈ availablePathsOf fd) := by
  constructor
  · intro p hp
    unfold validateAnswer at hp
    split at hp <;> exact sourcesAfterBackfill_subset fd m p hp
  · intro r hr
    unfold validateAnswer at hr
    split at hr
    · simp at hr
    · exact refsAfterBackfill_subset fd m r hr

/-- Witness for C1 at a concrete retrieval and model answer. -/
theorem c1_grounding_invariant_witness :
    exFd.files ≠ [] ∧
    (∀ p ∈ (validateAnswer exFd exM).sources, p ∈ availablePathsOf exFd) :=
  ⟨by decide, (c1_grounding_invariant exFd exM (by decide)).1⟩

/-- C10: when the validator finalizes cannot_answer true for a non-empty
retrieval, it forces answer, references, trace and missing to empty but
leaves the sources array as the path-grounding filter produced it, so
grounded source paths the model supplied remain present in the emitted
result. -/
theorem c10_cannot_answer_keeps_sources (fd : Retrieval) (m : ModelAnswer)
    (h : fd.files ≠ []) (hca : (validateAnswer fd m).cannot_answer = true) :
    (validateAnswer fd m).sources = filteredSources fd m ∧
    (validateAnswer fd m).answer = some [] ∧
    (validateAnswer fd m).references = [] ∧
    (validateAnswer fd m).trace = [] ∧
    (validateAnswer fd m).missing = [] := by
  have hmca : m.cannot_answer = true := by
    by_contra hmc
    have hmc' : m.cannot_answer = false := by
      cases hm : m.cannot_answer
      · rfl
      · exact absurd hm hmc
    have hne := refsAfterBackfill_ne_nil fd m h hmc'
    have hcond : ¬ (m.cannot_answer = true ∨
        (refsAfterBackfill fd m = [] ∧
          (m.answer = none ∨ jsTrim (m.answer.getD []) = []))) := by
      rintro (hc | ⟨hc, -⟩)
      · rw [hmc'] at hc; exact Bool.false_ne_true hc
      · exact hne hc
    unfold validateAnswer at hca
    rw [if_neg hcond] at hca
    have hscr := scrubStep_cannot_answer_false (availablePathsOf fd) (preScrubSt m) rfl
    rw [hscr] at hca
    exact Bool.false_ne_true hca
  unfold validateAnswer
  rw [if_pos (Or.inl hmca)]
  exact ⟨sourcesAfterBackfill_of_ca fd m hmca, rfl, rfl, rfl, rfl⟩

/-- Witness for C10 at a concrete retrieval and a model answer that
declared cannot_answer while citing a grounded source. -/
theorem c10_cannot_answer_keeps_sources_witness :
    exFd.files ≠ [] ∧ (validateAnswer exFd exMTrue).cannot_answer = true ∧
    (validateAnswer exFd exMTrue).sources = filteredSources exFd exMTrue :=
  ⟨by decide, by decide,
    (c10_cannot_answer_keeps_sources exFd exMTrue (by decide) (by decide)).1⟩

/-- C4: for a non-empty retrieval, the final cannot_answer is true exactly
when the model explicitly set it or when, after path filtering and the two
back-fills, the references are still empty and the answer text is empty or
whitespace; in that terminal case answer, references, trace and missing are
forced empty and the reason is non-empty, with the canonical reason
supplied when the model gave none.  Otherwise cannot_answer is false (the
reason field is total in this model, so it is always present). -/
theorem c4_cannot_answer_resolution (fd : Retrieval) (m : ModelAnswer)
    (h : fd.files ≠ []) :
    ((validateAnswer fd m).cannot_answer = true ↔
      (m.cannot_answer = true ∨
        (refsAfterBackfill fd m = [] ∧
          (m.answer = none ∨ jsTrim (m.answer.getD []) = [])))) ∧
    ((validateAnswer fd m).cannot_answer = true →
      (validateAnswer fd m).answer = some [] ∧
      (validateAnswer fd m).references = [] ∧
      (validateAnswer fd m).trace = [] ∧
      (validateAnswer fd m).missing = [] ∧
      (validateAnswer fd m).reason ≠ [] ∧
      (m.reason = [] → (validateAnswer fd m).reason = noInfoReason)) := by
  have hiff : (validateAnswer fd m).cannot_answer = true ↔
      (m.cannot_answer = true ∨
        (refsAfterBackfill fd m = [] ∧
          (m.answer = none ∨ jsTrim (m.answer.getD []) = []))) := by
    constructor
    · intro hca
      by_contra hcond
      unfold validateAnswer at hca
      rw [if_neg hcond] at hca
      have hscr := scrubStep_cannot_answer_false (availablePathsOf fd) (preScrubSt m) rfl
      rw [hscr] at hca
      exact Bool.false_ne_true hca
    · intro hcond
      unfold validateAnswer
      rw [if_pos hcond]
  refine ⟨hiff, fun hca => ?_⟩
  have hcond := hiff.1 hca
  unfold validateAnswer
  rw [if_pos hcond]
  refine ⟨rfl, rfl, rfl, rfl, ?_, ?_⟩
  · dsimp only
    split
    · decide
    · rename_i hne
      exact hne
  · intro hr
    dsimp only
    rw [if_pos hr]

/-- Witness for C4 at a concrete retrieval and a model answer that declared
cannot_answer. -/
theorem c4_cannot_answer_resolution_witness :
    exFd.files ≠ [] ∧
    ((validateAnswer exFd exMTrue).cannot_answer = true ↔
      (exMTrue.cannot_answer = true ∨
        (refsAfterBackfill exFd exMTrue = [] ∧
          (exMTrue.answer = none ∨ jsTrim (exMTrue.answer.getD []) = [])))) :=
  ⟨by decide, (c4_cannot_answer_resolution exFd exMTrue (by decide)).1⟩

/-! ## Selector lemmas -/

/-- Accumulating 10 per satisfied keyword is 10 times the satisfied count. -/
theorem foldl_ten_eq_countP (p : Str → Bool) (a : Nat) (ks : List Str) :
    ks.foldl (fun s k => if p k then s + 10 else s) a = a + 10 * ks.countP p := by
  induction ks generalizing a with
  | nil => simp
  | cons k ks ih =>
    simp only [List.foldl_cons, List.countP_cons]
    by_cases hp : p k = true
    · rw [if_pos hp, ih, hp]
      simp
      ring
    · rw [if_neg hp, ih]
      simp [hp]

/-- Accumulating a function of each keyword is the sum of its values. -/
theorem foldl_add_eq_sum (f : Str → Nat) (a : Nat) (ks : List Str) :
    ks.foldl (fun s k => s + f k) a = a + (ks.map f).sum := by
  induction ks generalizing a with
  | nil => simp
  | cons k ks ih =>
    simp only [List.foldl_cons, List.map_cons, List.sum_cons]
    rw [ih]
    ring

/-- Closed form of the two scoring loops. -/
theorem lexScore_formula (ks : List Str) (path content : Str) :
    lexScore ks path content =
      10 * ks.countP (fun k => isInfixB k (lowerC path)) +
      (ks.map (fun k => min (countOcc k (lowerC content)) 20)).sum := by
  unfold lexScore lexScoreP
  rw [foldl_add_eq_sum (fun k => min (countOcc k (lowerC content)) 20)]
  rw [foldl_ten_eq_countP (fun k => isInfixB k (lowerC path))]
  simp

/-- The ranking total preorder of the lexical sort is total. -/
instance : IsTotal Scored lexR := by
  constructor
  intro a b
  unfold lexR
  omega

/-- The ranking total preorder of the lexical sort is transitive. -/
instance : IsTrans Scored lexR := by
  constructor
  intro a b c hab hbc
  unfold lexR at *
  omega

/-! ## Claim theorems: scorer and ranking -/

/-- C7: for every candidate whose content fetch succeeds, the lexical score
is exactly 10 for each question keyword (lower-cased tokens of the question
split on non-word runs, keeping tokens longer than 3 characters) occurring
as a substring of the lower-cased path, plus, for each keyword, its
occurrence count in the lower-cased (possibly truncated) content capped at
20. -/
theorem c7_lexical_score (fetchC : Str → Option Str) (q : Str)
    (item : TreeEntry) (sf : Scored)
    (h : scoreOne fetchC (keywordsOf q) item = some sf) :
    sf.score =
      10 * (keywordsOf q).countP (fun k => isInfixB k (lowerC sf.path)) +
      ((keywordsOf q).map (fun k => min (countOcc k (lowerC sf.content)) 20)).sum := by
  unfold scoreOne at h
  rcases hf : fetchC item.path with - | content
  · rw [hf] at h
    simp at h
  · rw [hf] at h
    simp only [Option.map_some', Option.some.injEq] at h
    subst h
    dsimp only
    exact lexScore_formula (keywordsOf q) item.path _

/-- Witness for C7 at a concrete fetched candidate. -/
theorem c7_lexical_score_witness :
    scoreOne authFetch (keywordsOf (strL "Where is auth handled")) authEntry =
      some authScored ∧
    authScored.score =
      10 * (keywordsOf (strL "Where is auth handled")).countP
        (fun k => isInfixB k (lowerC authScored.path)) +
      ((keywordsOf (strL "Where is auth handled")).map
        (fun k => min (countOcc k (lowerC authScored.content)) 20)).sum :=
  ⟨by decide, c7_lexical_score authFetch _ authEntry authScored (by decide)⟩

/-- C5: if the embedding call fails, the final ranking of scored candidates
is exactly the pure lexical ranking (descending lexical score, ties broken
by shallower path, expressed by the sortedness of the result under the
lexical preorder together with its being a permutation of the input) and is
identical to the order produced when the semantic re-ranker is skipped
entirely; no semantic scores are blended in. -/
theorem c5_embedding_failure_lexical (semAvail : Bool) (q : Str)
    (embedOut : Option (List Rat)) (fs : List Scored) :
    rankScored semAvail q none fs = sortLex fs ∧
    rankScored false q embedOut fs = sortLex fs ∧
    (rankScored semAvail q none fs).Sorted lexR ∧
    (rankScored semAvail q none fs).Perm fs := by
  have h1 : rankScored semAvail q none fs = sortLex fs := by
    unfold rankScored
    split <;> rfl
  have h2 : rankScored false q embedOut fs = sortLex fs := by
    unfold rankScored
    split
    · rename_i hcond
      exact absurd hcond.1 (by simp)
    · rfl
  refine ⟨h1, h2, ?_, ?_⟩
  · rw [h1]
    exact List.sorted_insertionSort lexR fs
  · rw [h1]
    exact List.perm_insertionSort lexR fs

/-- C8: among equally scored candidates the lexical ranking places the one
with fewer path segments strictly earlier (no deeper path ever precedes a
strictly shallower one of equal score), and in the concrete scenario with
maxFiles = 1 and two equally scored candidates at depths 2 and 1 the
selector admits the depth-1 file. -/
theorem c8_tie_break_shallower (fs : List Scored) :
    (sortLex fs).Pairwise
      (fun a b => a.score = b.score → pDepth a.path ≤ pDepth b.path) ∧
    (fetchRepoTreeAndFiles [deepEntry, shallowEntry] noRules (strL "")
        tieFetch noDepFetch false none 1 1000).files.map RFile.path =
      [strL "c.js"] := by
  constructor
  · have hs := List.sorted_insertionSort lexR fs
    refine hs.imp ?_
    intro a b hab heq
    rcases hab with hlt | ⟨-, hd⟩
    · omega
    · exact hd
  · decide

/-! ## Admission and back-fill loop lemmas -/

/-- Files of the ranked admission come from the start state or the ranked
list. -/
theorem admitLoop_files_subset (maxFiles maxBytes : Nat) :
    ∀ (fs : List Scored) (res : Retrieval),
      ∀ f ∈ (admitLoop maxFiles maxBytes fs res).files,
        f ∈ res.files ∨ ∃ s ∈ fs, f = mkRFile s := by
  intro fs
  induction fs with
  | nil => intro res f hf; exact Or.inl hf
  | cons s fs ih =>
    intro res f hf
    unfold admitLoop at hf
    split at hf
    · exact Or.inl hf
    · split at hf
      · exact Or.inl hf
      · rcases ih _ f hf with h | ⟨s', hs', he⟩
        · rcases List.mem_append.1 h with h1 | h1
          · exact Or.inl h1
          · exact Or.inr ⟨s, by simp, by simpa using h1⟩
        · exact Or.inr ⟨s', by simp [hs'], he⟩

/-- Files of the manifest back-fill come from the start state or the
manifest list. -/
theorem depLoop_files_subset (fetchD : Str → Option Str) (maxBytes : Nat) :
    ∀ (deps : List Str) (res : Retrieval),
      ∀ f ∈ (depLoop fetchD maxBytes deps res).files,
        f ∈ res.files ∨ f.path ∈ deps := by
  intro deps
  induction deps with
  | nil => intro res f hf; exact Or.inl hf
  | cons dep deps ih =>
    intro res f hf
    unfold depLoop at hf
    split at hf
    · rcases ih _ f hf with h | h
      · exact Or.inl h
      · exact Or.inr (by simp [h])
    · split at hf
      · dsimp only at hf
        split at hf
        · rcases ih _ f hf with h | h
          · rcases List.mem_append.1 h with h1 | h1
            · exact Or.inl h1
            · refine Or.inr ?_
              have hfd : f.path = dep := by
                have := List.mem_singleton.1 h1
                rw [this]
              simp [hfd]
          · exact Or.inr (by simp [h])
        · rcases ih _ f hf with h | h
          · exact Or.inl h
          · exact Or.inr (by simp [h])
      · rcases ih _ f hf with h | h
        · exact Or.inl h
        · exact Or.inr (by simp [h])

/-- The path of a blended entry is the path of the underlying entry. -/
theorem zipWith_blend_path (fs : List Scored) (sims : List Rat) :
    ∀ x ∈ List.zipWith blend fs sims, x.path ∈ fs.map Scored.path := by
  induction fs generalizing sims with
  | nil => simp
  | cons f fs ih =>
    intro x hx
    cases sims with
    | nil => simp at hx
    | cons sim sims =>
      rcases List.mem_cons.1 hx with hx | hx
      · subst hx
        simp [blend]
      · have := ih sims x hx
        simp only [List.map_cons, List.mem_cons]
        exact Or.inr this

/-- Paths of the lexical sort come from the input list. -/
theorem sortLex_path_mem (l : List Scored) :
    ∀ s ∈ sortLex l, s.path ∈ l.map Scored.path := by
  intro s hs
  unfold sortLex at hs
  rw [List.mem_insertionSort] at hs
  exact List.mem_map.2 ⟨s, hs, rfl⟩

/-- Re-ranking permutes scored files, so paths are preserved. -/
theorem rankScored_path_mem (semAvail : Bool) (q : Str)
    (embedOut : Option (List Rat)) (fs : List Scored) :
    ∀ s ∈ rankScored semAvail q embedOut fs, s.path ∈ fs.map Scored.path := by
  intro s hs
  unfold rankScored at hs
  split at hs
  · rcases embedOut with - | sims
    · dsimp only at hs
      exact sortLex_path_mem fs s hs
    · dsimp only at hs
      split at hs
      · rw [List.mem_insertionSort] at hs
        exact zipWith_blend_path fs sims s hs
      · exact sortLex_path_mem fs s hs
  · exact sortLex_path_mem fs s hs

/-- The path of a successfully scored candidate is the candidate's path. -/
theorem scoreOne_path (fetchC : Str → Option Str) (ks : List Str)
    (item : TreeEntry) (sf : Scored) (h : scoreOne fetchC ks item = some sf) :
    sf.path = item.path := by
  unfold scoreOne at h
  rcases hf : fetchC item.path with - | content
  · rw [hf] at h; simp at h
  · rw [hf] at h
    simp only [Option.map_some', Option.some.injEq] at h
    subst h
    rfl

/-- The admitted record keeps the scored path. -/
theorem mkRFile_path (s : Scored) : (mkRFile s).path = s.path := rfl

/-! ## Claim theorems: fetch window and budget -/

/-- C9: every file of a selector result is either one of the first 500
entries of the structurally sorted filtered candidate list (the only
entries ever fetched and scored, since the scoring loop runs over that
window) or one of the three always-include manifest files. -/
theorem c9_window_500 (tree : List TreeEntry) (rules : Rules) (question : Str)
    (fetchC fetchD : Str → Option Str) (semAvail : Bool)
    (embedOut : Option (List Rat)) (maxFiles maxBytes : Nat) (f : RFile)
    (hf : f ∈ (fetchRepoTreeAndFiles tree rules question fetchC fetchD semAvail
        embedOut maxFiles maxBytes).files) :
    f.path ∈ ((sortStruct (candFilter rules tree)).take 500).map TreeEntry.path ∨
    f.path ∈ depFiles := by
  unfold fetchRepoTreeAndFiles at hf
  dsimp only at hf
  rcases depLoop_files_subset _ _ _ _ f hf with h | h
  · rcases admitLoop_files_subset _ _ _ _ f h with h2 | ⟨s, hs, he⟩
    · simp at h2
    · left
      have hp := rankScored_path_mem _ _ _ _ s hs
      have hfp : f.path = s.path := by rw [he, mkRFile_path]
      rw [hfp]
      rcases hsplit : (if maxFiles = 0 ∨ maxBytes = 0 then ([] : List Scored)
          else ((sortStruct (candFilter rules tree)).take 500).filterMap
            (scoreOne fetchC (keywordsOf question))) with - | _
      · rw [hsplit] at hp
        simp at hp
      · rw [hsplit] at hp
        rw [← hsplit] at hp
        split at hp
        · simp at hp
        · rcases List.mem_map.1 hp with ⟨s', hs', hsp⟩
          rcases List.mem_filterMap.1 hs' with ⟨item, hitem, hscore⟩
          have := scoreOne_path _ _ _ _ hscore
          rw [← hsp, this]
          exact List.mem_map.2 ⟨item, hitem, rfl⟩
  · exact Or.inr h

/-- Witness for C9 at the concrete tie-break scenario input. -/
theorem c9_window_500_witness :
    cFile ∈ (fetchRepoTreeAndFiles [deepEntry, shallowEntry] noRules (strL "")
      tieFetch noDepFetch false none 1 1000).files ∧
    (cFile.path ∈
      ((sortStruct (candFilter noRules [deepEntry, shallowEntry])).take 500).map
        TreeEntry.path ∨
      cFile.path ∈ depFiles) :=
  ⟨by decide, c9_window_500 [deepEntry, shallowEntry] noRules (strL "")
    tieFetch noDepFetch false none 1 1000 cFile (by decide)⟩

/-- Total bytes never exceed the byte cap through the ranked admission. -/
theorem admitLoop_totalBytes_le (maxFiles maxBytes : Nat) :
    ∀ (fs : List Scored) (res : Retrieval), res.totalBytes ≤ maxBytes →
      (admitLoop maxFiles maxBytes fs res).totalBytes ≤ maxBytes := by
  intro fs
  induction fs with
  | nil => intro res h; exact h
  | cons s fs ih =>
    intro res h
    unfold admitLoop
    split
    · exact h
    · split
      · exact h
      · rename_i hb
        exact ih _ (by simp; omega)

/-- The ranked admission respects the file-count cap. -/
theorem admitLoop_length_le (maxFiles maxBytes : Nat) :
    ∀ (fs : List Scored) (res : Retrieval), res.files.length ≤ maxFiles →
      (admitLoop maxFiles maxBytes fs res).files.length ≤ maxFiles := by
  intro fs
  induction fs with
  | nil => intro res h; exact h
  | cons s fs ih =>
    intro res h
    unfold admitLoop
    split
    · exact h
    · split
      · exact h
      · rename_i hlen hb
        refine ih _ ?_
        simp
        omega

/-- Total bytes never exceed the byte cap through the manifest back-fill. -/
theorem depLoop_totalBytes_le (fetchD : Str → Option Str) (maxBytes : Nat) :
    ∀ (deps : List Str) (res : Retrieval), res.totalBytes ≤ maxBytes →
      (depLoop fetchD maxBytes deps res).totalBytes ≤ maxBytes := by
  intro deps
  induction deps with
  | nil => intro res h; exact h
  | cons dep deps ih =>
    intro res h
    unfold depLoop
    split
    · exact ih _ h
    · split
      · dsimp only
        split
        · rename_i hfit
          exact ih _ (by simpa using hfit)
        · exact ih _ h
      · exact ih _ h

/-- The manifest back-fill admits at most one file per manifest name. -/
theorem depLoop_length_le (fetchD : Str → Option Str) (maxBytes : Nat) :
    ∀ (deps : List Str) (res : Retrieval),
      (depLoop fetchD maxBytes deps res).files.length ≤
        res.files.length + deps.length := by
  intro deps
  induction deps with
  | nil => intro res; simp [depLoop]
  | cons dep deps ih =>
    intro res
    unfold depLoop
    split
    · have := ih res
      simp only [List.length_cons]
      omega
    · split
      · dsimp only
        split
        · refine le_trans (ih _) ?_
          simp only [List.length_append, List.length_cons, List.length_nil]
          omega
        · have := ih res
          simp only [List.length_cons]
          omega
      · have := ih res
        simp only [List.length_cons]
        omega

/-- Counterexample to C2 as stated: with maxFiles = 1 and ample byte budget
the ranked pass admits one file and the manifest back-fill then admits
package.json as a second file, because the back-fill checks only the byte
budget; files.length = 2 > maxFiles = 1. -/
theorem c2_filecap_counterexample :
    (fetchRepoTreeAndFiles [cxEntry] noRules (strL "") cxFetch cxDep false none
        1 1000).files.length = 2 ∧
    ¬ ((fetchRepoTreeAndFiles [cxEntry] noRules (strL "") cxFetch cxDep false none
        1 1000).files.length ≤ 1) := by
  constructor
  · decide
  · decide

/-- C2 amended: every selector output satisfies totalBytes less than or
equal to maxBytes, including after the manifest back-fill, and the ranked
pass respects files.length less than or equal to maxFiles; the back-fill,
however, checks only the byte budget, so the final file count is bounded by
maxFiles plus the three manifest files rather than by maxFiles. -/
theorem c2_budget_amended (tree : List TreeEntry) (rules : Rules) (question : Str)
    (fetchC fetchD : Str → Option Str) (semAvail : Bool)
    (embedOut : Option (List Rat)) (maxFiles maxBytes : Nat) :
    (fetchRepoTreeAndFiles tree rules question fetchC fetchD semAvail embedOut
      maxFiles maxBytes).totalBytes ≤ maxBytes ∧
    (fetchRepoTreeAndFiles tree rules question fetchC fetchD semAvail embedOut
      maxFiles maxBytes).files.length ≤ maxFiles + 3 ∧
    (∀ ranked : List Scored,
      (admitLoop maxFiles maxBytes ranked { files := [], totalBytes := 0 }).files.length ≤
        maxFiles) := by
  refine ⟨?_, ?_, ?_⟩
  · unfold fetchRepoTreeAndFiles
    dsimp only
    exact depLoop_totalBytes_le _ _ _ _
      (admitLoop_totalBytes_le _ _ _ _ (by simp))
  · unfold fetchRepoTreeAndFiles
    dsimp only
    refine le_trans (depLoop_length_le _ _ _ _) ?_
    have h1 := admitLoop_length_le maxFiles maxBytes
      (rankScored semAvail question embedOut
        (if maxFiles = 0 ∨ maxBytes = 0 then []
         else ((sortStruct (candFilter rules tree)).take 500).filterMap
           (scoreOne fetchC (keywordsOf question))))
      { files := [], totalBytes := 0 } (by simp)
    simp only [depFiles, List.length_cons, List.length_nil]
    omega
  · intro ranked
    exact admitLoop_length_le _ _ _ _ (by simp)

/-! ## Token-scanner decomposition lemmas (for the scrub idempotence) -/

/-- Any two sufficient fuels give the scanner the same result. -/
theorem scanToksF_congr : ∀ (f g : Nat) (l : Str), l.length ≤ f → l.length ≤ g →
    scanToksF f l = scanToksF g l := by
  intro f
  induction f with
  | zero =>
    intro g l hf _
    have hl : l = [] := List.length_eq_zero.1 (Nat.le_zero.1 hf)
    subst hl
    cases g <;> rfl
  | succ f ih =>
    intro g l hf hg
    cases l with
    | nil => cases g <;> rfl
    | cons c rest =>
      cases g with
      | zero => simp at hg
      | succ g' =>
        show scanToksF (f + 1) (c :: rest) = scanToksF (g' + 1) (c :: rest)
        unfold scanToksF
        dsimp only
        by_cases hn : matchLen (c :: rest) = 0
        · rw [if_pos hn, if_pos hn]
          exact ih g' rest (by simpa using hf) (by simpa using hg)
        · rw [if_neg hn, if_neg hn]
          congr 1
          apply ih
          · simp only [List.length_drop, List.length_cons]
            simp only [List.length_cons] at hf
            omega
          · simp only [List.length_drop, List.length_cons]
            simp only [List.length_cons] at hg
            omega

/-- The scanner of the empty string. -/
theorem scanToks_nil : scanToks [] = [] := rfl

/-- One step of the global scan. -/
theorem scanToks_cons (c : Char) (rest : Str) :
    scanToks (c :: rest) =
      if matchLen (c :: rest) = 0 then scanToks rest
      else (c :: rest).take (matchLen (c :: rest)) ::
        scanToks ((c :: rest).drop (matchLen (c :: rest))) := by
  show scanToksF (rest.length + 1) (c :: rest) = _
  unfold scanToksF
  dsimp only
  by_cases hn : matchLen (c :: rest) = 0
  · rw [if_pos hn, if_pos hn]
    rfl
  · rw [if_neg hn, if_neg hn]
    congr 1
    apply scanToksF_congr
    · simp only [List.length_drop, List.length_cons]
      omega
    · exact le_refl _

/-- A successful backtracking search reports a dot inside the list followed
by a recognised extension. -/
theorem scanJ_spec : ∀ (k : Nat) (l : Str) (d : Nat) (e : Str),
    scanJ l k = some (d, e) →
      1 ≤ d ∧ d ≤ k ∧ l[d]? = some '.' ∧ extFind (l.drop (d + 1)) = some e := by
  intro k
  induction k with
  | zero =>
    intro l d e h
    simp [scanJ] at h
  | succ j ih =>
    intro l d e h
    unfold scanJ at h
    by_cases hdot : l[j + 1]? = some '.'
    · rw [if_pos hdot] at h
      rcases hef : extFind (l.drop (j + 2)) with - | e'
      · rw [hef] at h
        dsimp only at h
        rcases ih l d e h with ⟨h1, h2, h3, h4⟩
        exact ⟨h1, by omega, h3, h4⟩
      · rw [hef] at h
        dsimp only at h
        have hde : j + 1 = d ∧ e' = e := by simpa using h
        rcases hde with ⟨hd, he⟩
        subst hd
        subst he
        exact ⟨by omega, le_refl _, hdot, hef⟩
    · rw [if_neg hdot] at h
      dsimp only at h
      rcases ih l d e h with ⟨h1, h2, h3, h4⟩
      exact ⟨h1, by omega, h3, h4⟩

/-- A found extension is a prefix of the rest. -/
theorem extFind_isPrefixOf {l e : Str} (h : extFind l = some e) :
    e.isPrefixOf l = true := by
  unfold extFind at h
  have hx := List.find?_some h
  exact hx

/-- A match never extends past the end of the list. -/
theorem matchLen_le (l : Str) : matchLen l ≤ l.length := by
  unfold matchLen
  dsimp only
  rcases hs : scanJ l ((l.takeWhile tokC).length - 1) with - | de
  · simp
  · rcases de with ⟨d, e⟩
    dsimp only
    rcases scanJ_spec _ _ _ _ hs with ⟨-, -, h3, h4⟩
    have hpre : e.isPrefixOf (l.drop (d + 1)) = true := extFind_isPrefixOf h4
    have hlen : e.length ≤ (l.drop (d + 1)).length :=
      (List.isPrefixOf_iff_prefix.1 hpre).length_le
    have hd : d < l.length := by
      rcases List.getElem?_eq_some.1 h3 with ⟨hlt, -⟩
      exact hlt
    rw [List.length_drop] at hlen
    omega

/-- No match starts at a character outside the token character class. -/
theorem matchLen_nonword_head (c : Char) (l : Str) (hc : tokC c = false) :
    matchLen (c :: l) = 0 := by
  unfold matchLen
  have ht : (c :: l).takeWhile tokC = [] := by
    rw [List.takeWhile_cons, hc]
    simp
  rw [ht]
  rfl

/-- The greedy run stops at a non-class character. -/
theorem takeWhile_append_nonword (c : Char) (hc : tokC c = false) (xs ys : Str) :
    (xs ++ c :: ys).takeWhile tokC = xs.takeWhile tokC := by
  induction xs with
  | nil =>
    simp only [List.nil_append, List.takeWhile_cons, hc]
    rfl
  | cons a xs ih =>
    by_cases ha : tokC a = true
    · simp only [List.cons_append, List.takeWhile_cons, ha, if_true, ih]
    · simp only [List.cons_append, List.takeWhile_cons, ha]
      simp at ha
      simp [ha]

/-- Extension matching cannot cross a non-class character. -/
theorem isPrefixOf_append_nonword (e : Str) (he : ∀ a ∈ e, tokC a = true)
    (c : Char) (hc : tokC c = false) :
    ∀ (u v : Str), e.isPrefixOf (u ++ c :: v) = e.isPrefixOf u := by
  induction e with
  | nil => intro u v; cases u <;> rfl
  | cons a e ih =>
    intro u v
    cases u with
    | nil =>
      have hne : (a == c) = false := by
        have ha := he a (by simp)
        by_cases hac : a = c
        · rw [hac] at ha
          rw [ha] at hc
          exact absurd hc (by simp)
        · simpa using hac
      show (a == c && e.isPrefixOf v) = List.isPrefixOf (a :: e) []
      rw [hne]
      rfl
    | cons b u =>
      show (a == b && e.isPrefixOf (u ++ c :: v)) = (a == b && e.isPrefixOf u)
      rw [ih (fun x hx => he x (by simp [hx]))]

/-- find? only depends on the predicate's values on the list. -/
theorem find?_congr_on {p q : Str → Bool} :
    ∀ l : List Str, (∀ x ∈ l, p x = q x) → l.find? p = l.find? q := by
  intro l
  induction l with
  | nil => intro _; rfl
  | cons x l ih =>
    intro h
    rw [List.find?_cons, List.find?_cons, h x (by simp)]
    split
    · rfl
    · exact ih (fun y hy => h y (by simp [hy]))

/-- Every character of every extension alternative is in the token class. -/
theorem extAlts_tokC : ∀ e ∈ extAlts, ∀ a ∈ e, tokC a = true := by decide

/-- The extension search cannot cross a non-class character. -/
theorem extFind_append_nonword (c : Char) (hc : tokC c = false) (u v : Str) :
    extFind (u ++ c :: v) = extFind u := by
  unfold extFind
  exact find?_congr_on extAlts
    (fun e hemem => isPrefixOf_append_nonword e (extAlts_tokC e hemem) c hc u v)

/-- The backtracking search is confined to the part before a non-class
character. -/
theorem scanJ_append_nonword (c : Char) (hc : tokC c = false) (xs ys : Str) :
    ∀ k, k < xs.length → scanJ (xs ++ c :: ys) k = scanJ xs k := by
  intro k
  induction k with
  | zero => intro _; rfl
  | succ j ih =>
    intro hk
    unfold scanJ
    have hget : (xs ++ c :: ys)[j + 1]? = xs[j + 1]? := by
      rw [List.getElem?_append]
      rw [if_pos hk]
    rw [hget]
    by_cases hdot : xs[j + 1]? = some '.'
    · rw [if_pos hdot, if_pos hdot]
      have hdrop : (xs ++ c :: ys).drop (j + 2) = xs.drop (j + 2) ++ c :: ys :=
        List.drop_append_of_le_length (by omega)
      rw [hdrop, extFind_append_nonword c hc]
      rcases hef : extFind (xs.drop (j + 2)) with - | e'
      · dsimp only
        exact ih (by omega)
      · rfl
    · rw [if_neg hdot, if_neg hdot]
      dsimp only
      exact ih (by omega)

/-- The match starting before a non-class character ignores what follows
it. -/
theorem matchLen_append_nonword (c : Char) (hc : tokC c = false) (xs ys : Str) :
    matchLen (xs ++ c :: ys) = matchLen xs := by
  unfold matchLen
  dsimp only
  rw [takeWhile_append_nonword c hc]
  rcases Nat.eq_zero_or_pos (xs.takeWhile tokC).length with h0 | hpos
  · rw [h0]
    rfl
  · have hkx : (xs.takeWhile tokC).length - 1 < xs.length := by
      have hle : (xs.takeWhile tokC).length ≤ xs.length :=
        (List.takeWhile_prefix tokC).length_le
      omega
    rw [scanJ_append_nonword c hc xs ys _ hkx]

/-- Key decomposition: the global token scan splits at any non-class
character. -/
theorem scanToks_append_nonword (c : Char) (hc : tokC c = false) :
    ∀ (n : Nat) (xs ys : Str), xs.length ≤ n →
      scanToks (xs ++ c :: ys) = scanToks xs ++ scanToks ys := by
  intro n
  induction n with
  | zero =>
    intro xs ys hx
    have hxe : xs = [] := List.length_eq_zero.1 (Nat.le_zero.1 hx)
    subst hxe
    simp only [List.nil_append, scanToks_nil]
    rw [scanToks_cons, if_pos (matchLen_nonword_head c ys hc)]
  | succ n ih =>
    intro xs ys hx
    cases xs with
    | nil =>
      simp only [List.nil_append, scanToks_nil]
      rw [scanToks_cons, if_pos (matchLen_nonword_head c ys hc)]
    | cons a xs' =>
      have heq : (a :: xs') ++ c :: ys = a :: (xs' ++ c :: ys) := rfl
      have hml : matchLen (a :: (xs' ++ c :: ys)) = matchLen (a :: xs') := by
        rw [← heq]
        exact matchLen_append_nonword c hc (a :: xs') ys
      by_cases hn : matchLen (a :: xs') = 0
      · rw [heq, scanToks_cons, hml, if_pos hn]
        rw [ih xs' ys (by simpa using hx)]
        rw [scanToks_cons a xs', if_pos hn]
      · rw [heq, scanToks_cons, hml, if_neg hn]
        have hle : matchLen (a :: xs') ≤ (a :: xs').length := matchLen_le _
        have htake : (a :: (xs' ++ c :: ys)).take (matchLen (a :: xs')) =
            (a :: xs').take (matchLen (a :: xs')) := by
          rw [← heq]
          exact List.take_append_of_le_length hle
        have hdrop : (a :: (xs' ++ c :: ys)).drop (matchLen (a :: xs')) =
            (a :: xs').drop (matchLen (a :: xs')) ++ c :: ys := by
          rw [← heq]
          exact List.drop_append_of_le_length hle
        rw [htake, hdrop]
        rw [ih ((a :: xs').drop (matchLen (a :: xs'))) ys (by
          simp only [List.length_drop, List.length_cons]
          simp only [List.length_cons] at hx
          omega)]
        rw [scanToks_cons a xs', if_neg hn]
        rw [List.cons_append]

/-- One non-class character in front never contributes a token. -/
theorem scanToks_cons_nonword (c : Char) (hc : tokC c = false) (l : Str) :
    scanToks (c :: l) = scanToks l := by
  rw [scanToks_cons, if_pos (matchLen_nonword_head c l hc)]

/-- One non-class character at the end never contributes a token. -/
theorem scanToks_concat_nonword (c : Char) (hc : tokC c = false) (l : Str) :
    scanToks (l ++ [c]) = scanToks l := by
  have h := scanToks_append_nonword c hc l.length l [] (le_refl _)
  simpa [scanToks_nil] using h

/-- Whitespace characters are outside the token class. -/
theorem wsB_not_tokC (c : Char) (h : wsB c = true) : tokC c = false := by
  unfold wsB at h
  simp only [Bool.or_eq_true, decide_eq_true_eq] at h
  rcases h with ((((h | h) | h) | h) | h) | h <;> subst h <;> decide

/-- Left trim does not change the token scan. -/
theorem scanToks_trimLeftC (l : Str) : scanToks (trimLeftC l) = scanToks l := by
  unfold trimLeftC
  induction l with
  | nil => rfl
  | cons c rest ih =>
    rw [List.dropWhile_cons]
    by_cases hc : wsB c = true
    · rw [if_pos hc, ih, scanToks_cons_nonword c (wsB_not_tokC c hc) rest]
    · rw [if_neg hc]

/-- Right trim does not change the token scan. -/
theorem scanToks_trimRightC (l : Str) : scanToks (trimRightC l) = scanToks l := by
  induction l using List.reverseRecOn with
  | nil => rfl
  | append_singleton l c ih =>
    by_cases hc : wsB c = true
    · have h1 : trimRightC (l ++ [c]) = trimRightC l := by
        unfold trimRightC
        rw [List.reverse_append]
        simp [List.dropWhile_cons, hc]
      rw [h1, ih, scanToks_concat_nonword c (wsB_not_tokC c hc) l]
    · have h1 : trimRightC (l ++ [c]) = l ++ [c] := by
        unfold trimRightC
        rw [List.reverse_append]
        simp [List.dropWhile_cons, hc]
      rw [h1]

/-- Trimming does not change the token scan. -/
theorem scanToks_jsTrim (l : Str) : scanToks (jsTrim l) = scanToks l := by
  unfold jsTrim
  rw [scanToks_trimRightC, scanToks_trimLeftC]

/-- Dropping leading newlines does not change the token scan. -/
theorem scanToks_dropWhile_nl (l : Str) :
    scanToks (l.dropWhile nlB) = scanToks l := by
  induction l with
  | nil => rfl
  | cons c rest ih =>
    rw [List.dropWhile_cons]
    by_cases hc : nlB c = true
    · rw [if_pos hc, ih]
      have hcn : c = '\n' := by simpa [nlB] using hc
      subst hcn
      rw [scanToks_cons_nonword '\n' (by decide)]
    · rw [if_neg hc]

/-- Tokens of a blank-line join are the tokens of the pieces. -/
theorem scanToks_joinSep (ps : List Str) :
    scanToks (joinSep ps) = (ps.map scanToks).flatten := by
  induction ps with
  | nil => rfl
  | cons p ps ih =>
    cases ps with
    | nil => simp [joinSep]
    | cons q l =>
      show scanToks (p ++ '\n' :: '\n' :: joinSep (q :: l)) = _
      rw [scanToks_append_nonword '\n' (by decide) p.length p _ (le_refl _)]
      rw [scanToks_cons_nonword '\n' (by decide)]
      rw [ih]
      simp

/-! ## Paragraph-split structure lemmas -/

/-- The paragraph scan never returns an empty list of pieces. -/
theorem modifyHead_ne_nil {g : Str → Str} {l : List Str} (h : l ≠ []) :
    l.modifyHead g ≠ [] := by
  cases l
  · exact absurd rfl h
  · simp

/-- The paragraph scan never returns an empty list of pieces. -/
theorem spGoB_ne_nil : ∀ (l : Str) (b : Bool), spGoB b l ≠ [] := by
  intro l
  induction l with
  | nil => intro b; cases b <;> simp [spGoB]
  | cons c rest ih =>
    intro b
    cases b
    · cases rest with
      | nil => simp [spGoB]
      | cons c2 rest' =>
        show spGoB false (c :: c2 :: rest') ≠ []
        unfold spGoB
        split
        · simp
        · exact modifyHead_ne_nil (ih false)
    · show spGoB true (c :: rest) ≠ []
      unfold spGoB
      split
      · exact ih true
      · exact modifyHead_ne_nil (ih false)

/-- Scan step of a piece character. -/
theorem spGoB_false_cons (c : Char) (rest : Str)
    (h : c ≠ '\n' ∨ rest.head? ≠ some '\n') :
    spGoB false (c :: rest) = (spGoB false rest).modifyHead (c :: ·) := by
  cases rest with
  | nil => rfl
  | cons c2 rest' =>
    have hcond : ¬ (c = '\n' ∧ c2 = '\n') := by
      rintro ⟨hc, hc2⟩
      rcases h with h | h
      · exact h hc
      · exact h (by rw [hc2]; rfl)
    show (if c = '\n' ∧ c2 = '\n' then [] :: spGoB true rest'
      else (spGoB false (c2 :: rest')).modifyHead (c :: ·)) =
      (spGoB false (c2 :: rest')).modifyHead (c :: ·)
    rw [if_neg hcond]

/-- Scan step of a separator start. -/
theorem spGoB_false_sep (rest : Str) :
    spGoB false ('\n' :: '\n' :: rest) = [] :: spGoB true rest := rfl

/-- Scan step inside a separator run. -/
theorem spGoB_true_nl (rest : Str) :
    spGoB true ('\n' :: rest) = spGoB true rest := rfl

/-- Scan step leaving a separator run. -/
theorem spGoB_true_notnl (c : Char) (rest : Str) (h : c ≠ '\n') :
    spGoB true (c :: rest) = (spGoB false rest).modifyHead (c :: ·) := by
  show (if c = '\n' then spGoB true rest
    else (spGoB false rest).modifyHead (c :: ·)) = _
  rw [if_neg h]

/-- The separator-consuming state drops the newline run and resumes. -/
theorem spGoB_true_eq (l : Str) :
    spGoB true l = spGoB false (l.dropWhile nlB) := by
  induction l with
  | nil => rfl
  | cons c rest ih =>
    by_cases hc : c = '\n'
    · subst hc
      have hdw : ('\n' :: rest).dropWhile nlB = rest.dropWhile nlB := by
        rw [List.dropWhile_cons, if_pos (by simp [nlB])]
      rw [spGoB_true_nl, ih, hdw]
    · rw [spGoB_true_notnl c rest hc]
      rw [List.dropWhile_cons, if_neg (by simpa [nlB] using hc)]
      rw [spGoB_false_cons c rest (Or.inl hc)]

/-- A string without a blank-line separator is a single piece. -/
theorem spGoB_of_preSep_none : ∀ l, preSep l = none → spGoB false l = [l] := by
  intro l
  induction l with
  | nil => intro _; rfl
  | cons c rest ih =>
    intro h
    cases rest with
    | nil => rfl
    | cons c2 rest' =>
      unfold preSep at h
      split at h
      · simp at h
      · rename_i hcond
        have h2 : preSep (c2 :: rest') = none := by
          rcases hp : preSep (c2 :: rest') with - | pr
          · rfl
          · rw [hp] at h
            simp at h
        show spGoB false (c :: c2 :: rest') = [c :: c2 :: rest']
        unfold spGoB
        rw [if_neg hcond]
        rw [ih h2]
        rfl

/-- A found separator decomposes the string: the part before it has no
separator, does not end in a newline, and the separator contributes exactly
two newlines at that point. -/
theorem preSep_some_spec : ∀ l pre suf, preSep l = some (pre, suf) →
    l = pre ++ '\n' :: '\n' :: suf ∧ preSep pre = none ∧
      pre.getLast? ≠ some '\n' := by
  intro l
  induction l with
  | nil =>
    intro pre suf h
    simp [preSep] at h
  | cons c rest ih =>
    intro pre suf h
    cases rest with
    | nil => simp [preSep] at h
    | cons c2 rest' =>
      unfold preSep at h
      split at h
      · rename_i hcond
        obtain ⟨hc, hc2⟩ := hcond
        subst hc
        subst hc2
        have hps : pre = [] ∧ rest' = suf := by
          constructor
          · have := congrArg (fun o => (o.getD ([], [])).1) h
            simpa using this.symm
          · have := congrArg (fun o => (o.getD ([], [])).2) h
            simpa using this
        obtain ⟨hp, hs⟩ := hps
        subst hp
        subst hs
        exact ⟨rfl, rfl, by simp⟩
      · rename_i hcond
        rcases hp : preSep (c2 :: rest') with - | pr
        · rw [hp] at h
          simp at h
        · rcases pr with ⟨pr1, pr2⟩
          rw [hp] at h
          simp only [Option.map_some', Option.some.injEq, Prod.mk.injEq] at h
          obtain ⟨hpre, hsuf⟩ := h
          rcases ih pr1 pr2 hp with ⟨hdec, hnone, hlast⟩
          rw [← hpre, ← hsuf]
          refine ⟨?_, ?_, ?_⟩
          · rw [hdec]
            rfl
          · cases pr1 with
            | nil => rfl
            | cons d pr1' =>
              have hd : c2 = d := by
                simpa using congrArg List.head? hdec
              show preSep (c :: d :: pr1') = none
              unfold preSep
              rw [if_neg (by rw [← hd]; exact hcond)]
              rw [show preSep (d :: pr1') = none from hnone]
              rfl
          · cases pr1 with
            | nil =>
              have hc2 : c2 = '\n' := by
                simpa using congrArg List.head? hdec
              have hcne : c ≠ '\n' := by
                intro hcc
                exact hcond ⟨hcc, hc2⟩
              simpa using hcne
            | cons d pr1' =>
              rw [List.getLast?_cons_cons]
              exact hlast

/-- Splitting at the first separator. -/
theorem spGoB_of_preSep_some : ∀ l pre suf, preSep l = some (pre, suf) →
    spGoB false l = pre :: spGoB true suf := by
  intro l
  induction l with
  | nil =>
    intro pre suf h
    simp [preSep] at h
  | cons c rest ih =>
    intro pre suf h
    cases rest with
    | nil => simp [preSep] at h
    | cons c2 rest' =>
      unfold preSep at h
      split at h
      · rename_i hcond
        obtain ⟨hc, hc2⟩ := hcond
        subst hc
        subst hc2
        have hps : pre = [] ∧ rest' = suf := by
          constructor
          · have := congrArg (fun o => (o.getD ([], [])).1) h
            simpa using this.symm
          · have := congrArg (fun o => (o.getD ([], [])).2) h
            simpa using this
        obtain ⟨hp, hs⟩ := hps
        subst hp
        subst hs
        exact spGoB_false_sep rest'
      · rename_i hcond
        rcases hp : preSep (c2 :: rest') with - | pr
        · rw [hp] at h
          simp at h
        · rcases pr with ⟨pr1, pr2⟩
          rw [hp] at h
          simp only [Option.map_some', Option.some.injEq, Prod.mk.injEq] at h
          obtain ⟨hpre, hsuf⟩ := h
          have hstep : spGoB false (c :: c2 :: rest') =
              (spGoB false (c2 :: rest')).modifyHead (c :: ·) := by
            show (if c = '\n' ∧ c2 = '\n' then [] :: spGoB true rest'
              else (spGoB false (c2 :: rest')).modifyHead (c :: ·)) = _
            rw [if_neg hcond]
          rw [← hpre, ← hsuf]
          rw [hstep, ih pr1 pr2 hp]
          rfl

/-- The suffix after the first separator is shorter than the string. -/
theorem preSep_suf_lt (l pre suf : Str) (h : preSep l = some (pre, suf)) :
    suf.length < l.length := by
  rcases preSep_some_spec l pre suf h with ⟨hdec, -, -⟩
  rw [hdec]
  simp only [List.length_append, List.length_cons]
  omega

/-- Tokens of the whole string are the tokens of its paragraphs. -/
theorem scanToks_splitParas_flatten : ∀ (n : Nat) (l : Str), l.length ≤ n →
    ((splitParas l).map scanToks).flatten = scanToks l := by
  intro n
  induction n with
  | zero =>
    intro l h
    have hl : l = [] := List.length_eq_zero.1 (Nat.le_zero.1 h)
    subst hl
    rfl
  | succ n ih =>
    intro l hl
    rcases hp : preSep l with - | pr
    · rw [show splitParas l = [l] from spGoB_of_preSep_none l hp]
      simp
    · rcases pr with ⟨pre, suf⟩
      rcases preSep_some_spec l pre suf hp with ⟨hdec, -, -⟩
      rw [show splitParas l = pre :: spGoB true suf from
        spGoB_of_preSep_some l pre suf hp]
      rw [spGoB_true_eq]
      simp only [List.map_cons, List.flatten_cons]
      have hlen : (suf.dropWhile nlB).length ≤ n := by
        have h1 : (suf.dropWhile nlB).length ≤ suf.length :=
          (List.dropWhile_suffix nlB).sublist.length_le
        have h2 : suf.length < l.length := preSep_suf_lt l pre suf hp
        omega
      rw [show spGoB false (suf.dropWhile nlB) = splitParas (suf.dropWhile nlB) from rfl]
      rw [ih (suf.dropWhile nlB) hlen]
      rw [scanToks_dropWhile_nl]
      rw [hdec]
      rw [scanToks_append_nonword '\n' (by decide) pre.length pre _ (le_refl _)]
      rw [scanToks_cons_nonword '\n' (by decide)]

/-! ## Pieces-structure invariant -/

/-- A cons sublist decomposes the larger list around the head element. -/
theorem cons_sublist_decomp {x : Str} : ∀ {l r : List Str}, (x :: l).Sublist r →
    ∃ r1 r2, r = r1 ++ x :: r2 ∧ l.Sublist r2 := by
  intro l r
  induction r with
  | nil => intro h; simp at h
  | cons y r' ih =>
    intro h
    cases h with
    | cons a h' =>
      rcases ih h' with ⟨r1, r2, hr, hl⟩
      exact ⟨y :: r1, r2, by rw [hr]; rfl, hl⟩
    | cons₂ a h' => exact ⟨[], r', rfl, h'⟩

/-- A middle-element decomposition of a sublist transfers to the larger
list, preserving non-emptiness of the two sides. -/
theorem sublist_mid_decomp {ps' ps : List Str} (hsub : ps'.Sublist ps) :
    ∀ (pre : List Str) (x : Str) (suf : List Str), ps' = pre ++ x :: suf →
      ∃ pre2 suf2, ps = pre2 ++ x :: suf2 ∧ (pre ≠ [] → pre2 ≠ []) ∧
        (suf ≠ [] → suf2 ≠ []) := by
  intro pre x suf hdec
  rw [hdec] at hsub
  rcases List.append_sublist_iff.1 hsub with ⟨r1, r2, hps, hpre, hxs⟩
  rcases cons_sublist_decomp hxs with ⟨a, b, hr2, hsuf⟩
  refine ⟨r1 ++ a, b, ?_, ?_, ?_⟩
  · rw [hps, hr2]
    simp
  · intro hne hcontra
    have hr1 : r1 = [] := by
      rcases List.append_eq_nil.1 hcontra with ⟨h1, -⟩
      exact h1
    rw [hr1] at hpre
    exact hne (List.sublist_nil.1 hpre)
  · intro hne hcontra
    rw [hcontra] at hsuf
    exact hne (List.sublist_nil.1 hsuf)

/-- Decomposing a singleton. -/
theorem singleton_decomp {x y : Str} {pre suf : List Str}
    (h : [y] = pre ++ x :: suf) : pre = [] ∧ x = y ∧ suf = [] := by
  cases pre with
  | nil =>
    injection h with h1 h2
    exact ⟨rfl, h1.symm, h2.symm⟩
  | cons a pre' =>
    injection h with h1 h2
    exact absurd h2.symm (by simp)

/-- Decomposing a cons. -/
theorem cons_decomp {p0 x : Str} {ps' pre suf : List Str}
    (h : p0 :: ps' = pre ++ x :: suf) :
    (pre = [] ∧ x = p0 ∧ suf = ps') ∨
    (∃ pre', pre = p0 :: pre' ∧ ps' = pre' ++ x :: suf) := by
  cases pre with
  | nil =>
    left
    injection h with h1 h2
    exact ⟨rfl, h1.symm, h2.symm⟩
  | cons a pre' =>
    right
    injection h with h1 h2
    exact ⟨pre', by rw [h1], h2⟩

/-- The head after dropping leading newlines is not a newline. -/
theorem dropWhile_nl_head (l : Str) : (l.dropWhile nlB).head? ≠ some '\n' := by
  induction l with
  | nil => simp
  | cons c rest ih =>
    rw [List.dropWhile_cons]
    by_cases hc : nlB c = true
    · rw [if_pos hc]
      exact ih
    · rw [if_neg hc]
      intro hcc
      apply hc
      rw [List.head?_cons] at hcc
      injection hcc with h'
      simp [nlB, h']

/-- The first piece of a split starts with the string's first character. -/
theorem splitParas_head_cons (c : Char) (rest : Str) (hc : c ≠ '\n') :
    ∃ q qs, splitParas (c :: rest) = (c :: q) :: qs := by
  rw [show splitParas (c :: rest) = (spGoB false rest).modifyHead (c :: ·) from
    spGoB_false_cons c rest (Or.inl hc)]
  rcases hq : spGoB false rest with - | ⟨q, qs⟩
  · exact absurd hq (spGoB_ne_nil rest false)
  · exact ⟨q, qs, by simp⟩

/-- First-piece facts of a split of a string not starting with a newline:
the piece does not start with a newline, and it is empty only when it is
the only piece. -/
theorem splitParas_first_piece (t : Str) (ht : t.head? ≠ some '\n') :
    ∀ x suf, splitParas t = x :: suf →
      x.head? ≠ some '\n' ∧ (x = [] → suf = []) := by
  cases t with
  | nil =>
    intro x suf h
    have h' : ([[]] : List Str) = x :: suf := h
    injection h' with h1 h2
    constructor
    · rw [← h1]
      simp
    · intro _
      exact h2.symm
  | cons c rest =>
    intro x suf h
    have hc : c ≠ '\n' := by
      intro hcc
      apply ht
      rw [hcc]
      rfl
    rcases splitParas_head_cons c rest hc with ⟨q, qs, heq⟩
    rw [heq] at h
    injection h with h1 h2
    constructor
    · rw [← h1]
      intro hx
      rw [List.head?_cons] at hx
      injection hx with h'
      exact hc h'
    · intro hx
      rw [← h1] at hx
      simp at hx

/-- Every split satisfies the pieces-structure invariant. -/
theorem PiecesOk_splitParas : ∀ (n : Nat) (l : Str), l.length ≤ n →
    PiecesOk (splitParas l) := by
  intro n
  induction n with
  | zero =>
    intro l h
    have hl : l = [] := List.length_eq_zero.1 (Nat.le_zero.1 h)
    subst hl
    intro pre x suf hdec
    rcases singleton_decomp hdec with ⟨hp, hx, hs⟩
    subst hp
    subst hx
    subst hs
    exact ⟨rfl, fun hs => absurd rfl hs, fun hp => absurd rfl hp,
      fun hp _ => absurd rfl hp⟩
  | succ n ih =>
    intro l hl
    rcases hp : preSep l with - | pr
    · rw [show splitParas l = [l] from spGoB_of_preSep_none l hp]
      intro pre x suf hdec
      rcases singleton_decomp hdec with ⟨hp', hx, hs⟩
      subst hp'
      subst hx
      subst hs
      exact ⟨hp, fun hs => absurd rfl hs, fun hpr => absurd rfl hpr,
        fun hpr _ => absurd rfl hpr⟩
    · rcases pr with ⟨pre0, suf0⟩
      rcases preSep_some_spec l pre0 suf0 hp with ⟨hdec0, hnone0, hlast0⟩
      have hsplit : splitParas l = pre0 :: splitParas (suf0.dropWhile nlB) := by
        rw [show splitParas l = pre0 :: spGoB true suf0 from
          spGoB_of_preSep_some l pre0 suf0 hp, spGoB_true_eq]
        rfl
      have hlen : (suf0.dropWhile nlB).length ≤ n := by
        have h1 : (suf0.dropWhile nlB).length ≤ suf0.length :=
          (List.dropWhile_suffix nlB).sublist.length_le
        have h2 : suf0.length < l.length := preSep_suf_lt l pre0 suf0 hp
        omega
      have hok' : PiecesOk (splitParas (suf0.dropWhile nlB)) := ih _ hlen
      rw [hsplit]
      intro pre x suf hdec
      rcases cons_decomp hdec with ⟨hpr, hx, hsf⟩ | ⟨pre', hpr, hrest⟩
      · subst hpr
        subst hx
        subst hsf
        exact ⟨hnone0, fun _ => hlast0, fun hpr => absurd rfl hpr,
          fun hpr _ => absurd rfl hpr⟩
      · subst hpr
        rcases hok' pre' x suf hrest with ⟨h1, h2, h3, h4⟩
        refine ⟨h1, h2, fun _ => ?_, fun _ hs => ?_⟩
        · cases pre' with
          | nil =>
            rcases splitParas_first_piece (suf0.dropWhile nlB)
              (dropWhile_nl_head suf0) x suf hrest with ⟨hh, -⟩
            exact hh
          | cons a pre'' => exact h3 (by simp)
        · cases pre' with
          | nil =>
            rcases splitParas_first_piece (suf0.dropWhile nlB)
              (dropWhile_nl_head suf0) x suf hrest with ⟨-, hemp⟩
            intro hx
            exact hs (hemp hx)
          | cons a pre'' => exact h4 (by simp) hs

/-- The pieces-structure invariant passes to sublists, in particular to any
filtered selection of paragraphs. -/
theorem PiecesOk_sublist {ps' ps : List Str} (hsub : ps'.Sublist ps)
    (hok : PiecesOk ps) : PiecesOk ps' := by
  intro pre x suf hdec
  rcases sublist_mid_decomp hsub pre x suf hdec with ⟨pre2, suf2, hps, hpre, hsuf⟩
  rcases hok pre2 x suf2 hps with ⟨h1, h2, h3, h4⟩
  exact ⟨h1, fun hs => h2 (hsuf hs), fun hpr => h3 (hpre hpr),
    fun hpr hs => h4 (hpre hpr) (hsuf hs)⟩

/-! ## Trim and join interaction -/

/-- Left trim of an all-whitespace string. -/
theorem trimLeftC_allws (p : Str) (h : allWsB p = true) : trimLeftC p = [] := by
  unfold trimLeftC
  rw [List.dropWhile_eq_nil_iff]
  exact fun x hx => List.all_eq_true.1 h x hx

/-- Left trim passes over an all-whitespace prefix. -/
theorem trimLeftC_append_allws (u v : Str) (h : allWsB u = true) :
    trimLeftC (u ++ v) = trimLeftC v := by
  unfold trimLeftC
  rw [List.dropWhile_append]
  rw [show (u.dropWhile wsB).isEmpty = true from by
    rw [List.isEmpty_iff]
    exact trimLeftC_allws u h]
  simp

/-- Left trim stops inside a prefix containing a non-whitespace character. -/
theorem trimLeftC_append_not (u v : Str) (h : allWsB u = false) :
    trimLeftC (u ++ v) = trimLeftC u ++ v := by
  unfold trimLeftC
  rw [List.dropWhile_append]
  have hne : (u.dropWhile wsB).isEmpty = false := by
    by_contra hc
    have h1 : (u.dropWhile wsB).isEmpty = true := by
      cases hx : (u.dropWhile wsB).isEmpty
      · exact absurd hx hc
      · rfl
    rw [List.isEmpty_iff] at h1
    rw [List.dropWhile_eq_nil_iff] at h1
    have hall : allWsB u = true := List.all_eq_true.2 h1
    rw [hall] at h
    simp at h
  rw [hne]
  simp

/-- The blank-line separator is all whitespace. -/
theorem allWsB_sep (p : Str) (h : allWsB p = true) :
    allWsB (p ++ ['\n', '\n']) = true := by
  unfold allWsB at *
  rw [List.all_append, h]
  decide

/-- Join of a cons with a non-empty tail. -/
theorem joinSep_cons (p : Str) (ps : List Str) (h : ps ≠ []) :
    joinSep (p :: ps) = p ++ '\n' :: '\n' :: joinSep ps := by
  cases ps with
  | nil => exact absurd rfl h
  | cons q l => rfl

/-- Join of an appended last element. -/
theorem joinSep_concat (p : Str) : ∀ ps : List Str, ps ≠ [] →
    joinSep (ps ++ [p]) = joinSep ps ++ '\n' :: '\n' :: p := by
  intro ps
  induction ps with
  | nil => intro h; exact absurd rfl h
  | cons q qs ih =>
    intro _
    cases qs with
    | nil => simp [joinSep]
    | cons r l =>
      rw [show (q :: r :: l) ++ [p] = q :: ((r :: l) ++ [p]) from rfl]
      rw [joinSep_cons q ((r :: l) ++ [p]) (by simp)]
      rw [ih (by simp)]
      rw [joinSep_cons q (r :: l) (by simp)]
      simp

/-- Left trim of a blank-line join drops leading all-whitespace pieces and
trims the first surviving piece. -/
theorem trimLeftC_joinSep : ∀ ps : List Str,
    trimLeftC (joinSep ps) = joinSep ((ps.dropWhile allWsB).modifyHead trimLeftC) := by
  intro ps
  induction ps with
  | nil => rfl
  | cons p ps ih =>
    by_cases hw : allWsB p = true
    · rw [List.dropWhile_cons, if_pos hw]
      cases ps with
      | nil =>
        show trimLeftC p = joinSep (List.modifyHead trimLeftC [])
        rw [trimLeftC_allws p hw]
        rfl
      | cons q l =>
        rw [joinSep_cons p (q :: l) (by simp)]
        rw [show p ++ '\n' :: '\n' :: joinSep (q :: l) =
          (p ++ ['\n', '\n']) ++ joinSep (q :: l) from by simp]
        rw [trimLeftC_append_allws _ _ (allWsB_sep p hw)]
        exact ih
    · have hwf : allWsB p = false := by
        cases hx : allWsB p
        · rfl
        · exact absurd hx hw
      rw [List.dropWhile_cons, if_neg (by rw [hwf]; simp)]
      cases ps with
      | nil => rfl
      | cons q l =>
        rw [joinSep_cons p (q :: l) (by simp)]
        rw [trimLeftC_append_not _ _ hwf]
        rw [show List.modifyHead trimLeftC (p :: q :: l) =
          trimLeftC p :: q :: l from rfl]
        rw [joinSep_cons (trimLeftC p) (q :: l) (by simp)]

/-- Reversing a blank-line join reverses the pieces and their order. -/
theorem joinSep_reverse : ∀ ps : List Str,
    (joinSep ps).reverse = joinSep ((ps.map List.reverse).reverse) := by
  intro ps
  induction ps with
  | nil => rfl
  | cons p ps ih =>
    cases ps with
    | nil => simp [joinSep]
    | cons q l =>
      rw [joinSep_cons p (q :: l) (by simp)]
      rw [show (p ++ '\n' :: '\n' :: joinSep (q :: l)).reverse =
        (joinSep (q :: l)).reverse ++ '\n' :: '\n' :: p.reverse from by
          simp]
      rw [ih]
      rw [show ((p :: q :: l).map List.reverse).reverse =
        ((q :: l).map List.reverse).reverse ++ [p.reverse] from by simp]
      rw [joinSep_concat p.reverse (((q :: l).map List.reverse).reverse) (by simp)]

/-- Left trim of a reversed string is the reverse of the right trim. -/
theorem trimLeftC_reverse (d : Str) :
    trimLeftC d.reverse = (trimRightC d).reverse := by
  unfold trimRightC
  rw [List.reverse_reverse]
  rfl

/-- The reversal bookkeeping of the right-trim computation. -/
theorem rl_modify_eq (qs : List Str) :
    ((((qs.map List.reverse).reverse.dropWhile allWsB).modifyHead
        trimLeftC).map List.reverse).reverse =
      modifyLastF trimRightC (rdropAllWs qs) := by
  have hcomp : (allWsB ∘ List.reverse : Str → Bool) = allWsB := by
    funext x
    show allWsB x.reverse = allWsB x
    unfold allWsB
    exact List.all_reverse
  have h1 : (qs.map List.reverse).reverse = qs.reverse.map List.reverse :=
    (List.map_reverse List.reverse qs).symm
  have h2 : (qs.reverse.map List.reverse).dropWhile allWsB =
      (qs.reverse.dropWhile allWsB).map List.reverse := by
    rw [List.dropWhile_map, hcomp]
  have h3 : ∀ D : List Str, (D.map List.reverse).modifyHead trimLeftC =
      (D.modifyHead trimRightC).map List.reverse := by
    intro D
    cases D with
    | nil => rfl
    | cons d D' =>
      show trimLeftC d.reverse :: D'.map List.reverse = _
      rw [trimLeftC_reverse]
      rfl
  have h4 : ∀ M : List Str, (M.map List.reverse).map List.reverse = M := by
    intro M
    rw [List.map_map]
    have hid : (List.reverse ∘ List.reverse : Str → Str) = id := by
      funext x
      exact List.reverse_reverse x
    rw [hid, List.map_id]
  rw [h1, h2, h3, h4]
  unfold modifyLastF rdropAllWs
  rw [List.reverse_reverse]

/-- Right trim of a blank-line join drops trailing all-whitespace pieces
and trims the last surviving piece. -/
theorem trimRightC_joinSep (ps : List Str) :
    trimRightC (joinSep ps) =
      joinSep (modifyLastF trimRightC (rdropAllWs ps)) := by
  have hstart : trimRightC (joinSep ps) =
      (trimLeftC (joinSep ps).reverse).reverse := rfl
  rw [hstart, joinSep_reverse, trimLeftC_joinSep, joinSep_reverse, rl_modify_eq]

/-- jsTrim over a blank-line join is the join of the trimmed pieces. -/
theorem jsTrim_joinSep (ps : List Str) :
    jsTrim (joinSep ps) = joinSep (trimPieces ps) := by
  unfold jsTrim
  rw [trimLeftC_joinSep, trimRightC_joinSep]
  rfl

/-- Prefixing a separator-free block not ending in a newline shifts the
first found separator past it. -/
theorem preSep_left (z : Str) : ∀ pre : Str, preSep pre = none →
    pre.getLast? ≠ some '\n' →
    preSep (pre ++ '\n' :: '\n' :: z) = some (pre, z) := by
  intro pre
  induction pre with
  | nil => intro _ _; rfl
  | cons c pre' ih =>
    intro hnone hlast
    cases pre' with
    | nil =>
      have hc : c ≠ '\n' := by simpa using hlast
      show preSep (c :: '\n' :: '\n' :: z) = some ([c], z)
      unfold preSep
      rw [if_neg (by rintro ⟨hcc, -⟩; exact hc hcc)]
      rw [show preSep ('\n' :: '\n' :: z) = some ([], z) from rfl]
      rfl
    | cons d pre'' =>
      have hcond : ¬ (c = '\n' ∧ d = '\n') := by
        rintro ⟨hc, hd⟩
        unfold preSep at hnone
        rw [if_pos ⟨hc, hd⟩] at hnone
        simp at hnone
      have hnone' : preSep (d :: pre'') = none := by
        unfold preSep at hnone
        rw [if_neg hcond] at hnone
        rcases hx : preSep (d :: pre'') with - | pr
        · rfl
        · rw [hx] at hnone
          simp at hnone
      have hlast' : (d :: pre'').getLast? ≠ some '\n' := by
        rw [List.getLast?_cons_cons] at hlast
        exact hlast
      have ih' := ih hnone' hlast'
      show preSep (c :: d :: (pre'' ++ '\n' :: '\n' :: z)) = some (c :: d :: pre'', z)
      rw [show preSep (c :: d :: (pre'' ++ '\n' :: '\n' :: z)) =
        if c = '\n' ∧ d = '\n' then some ([], pre'' ++ '\n' :: '\n' :: z)
        else (preSep (d :: (pre'' ++ '\n' :: '\n' :: z))).map
          (fun pr => (c :: pr.1, pr.2)) from rfl]
      rw [if_neg hcond]
      rw [show preSep (d :: (pre'' ++ '\n' :: '\n' :: z)) = some (d :: pre'', z) from ih']
      rfl

/-- The pieces-structure invariant passes to the tail. -/
theorem PiecesOk_tail {p : Str} {ps : List Str} (hok : PiecesOk (p :: ps)) :
    PiecesOk ps := by
  intro pre x suf hdec
  rcases hok (p :: pre) x suf (by rw [hdec]; rfl) with ⟨h1, h2, h3, h4⟩
  exact ⟨h1, h2, fun _ => h3 (by simp), fun _ hs => h4 (by simp) hs⟩

/-- Round trip: splitting a join of structurally valid pieces recovers the
pieces. -/
theorem splitParas_joinSep : ∀ ps : List Str, ps ≠ [] → PiecesOk ps →
    splitParas (joinSep ps) = ps := by
  intro ps
  induction ps with
  | nil => intro h _; exact absurd rfl h
  | cons p ps ih =>
    intro _ hok
    cases ps with
    | nil =>
      show splitParas (joinSep [p]) = [p]
      have hnone : preSep p = none := (hok [] p [] rfl).1
      exact spGoB_of_preSep_none p hnone
    | cons q l =>
      rw [joinSep_cons p (q :: l) (by simp)]
      have hnone : preSep p = none := (hok [] p (q :: l) rfl).1
      have hlast : p.getLast? ≠ some '\n' := (hok [] p (q :: l) rfl).2.1 (by simp)
      have hps : preSep (p ++ '\n' :: '\n' :: joinSep (q :: l)) =
          some (p, joinSep (q :: l)) := preSep_left (joinSep (q :: l)) p hnone hlast
      rw [show splitParas (p ++ '\n' :: '\n' :: joinSep (q :: l)) =
        p :: spGoB true (joinSep (q :: l)) from
        spGoB_of_preSep_some _ p (joinSep (q :: l)) hps]
      rw [spGoB_true_eq]
      have hdw : (joinSep (q :: l)).dropWhile nlB = joinSep (q :: l) := by
        cases q with
        | nil =>
          cases l with
          | nil => rfl
          | cons r l' =>
            have hq4 := (hok [p] [] (r :: l') rfl).2.2.2
            exact absurd rfl (hq4 (by simp) (by simp))
        | cons c q' =>
          have hq3 : (c :: q').head? ≠ some '\n' :=
            (hok [p] (c :: q') l rfl).2.2.1 (by simp)
          have hc : nlB c = false := by
            rcases hx : nlB c with - | -
            · rfl
            · exfalso
              apply hq3
              rw [List.head?_cons]
              have hcc : c = '\n' := by simpa [nlB] using hx
              rw [hcc]
          obtain ⟨w, hw⟩ : ∃ w, joinSep ((c :: q') :: l) = c :: w := by
            cases l with
            | nil => exact ⟨q', rfl⟩
            | cons r l' =>
              rw [joinSep_cons (c :: q') (r :: l') (by simp)]
              exact ⟨q' ++ '\n' :: '\n' :: joinSep (r :: l'), rfl⟩
          rw [hw, List.dropWhile_cons, if_neg (by rw [hc]; simp)]
      rw [hdw]
      rw [show spGoB false (joinSep (q :: l)) = splitParas (joinSep (q :: l)) from rfl]
      rw [ih (by simp) (PiecesOk_tail hok)]

/-! ## Whitespace-trim algebra -/

/-- The head of a dropWhile result fails the predicate. -/
theorem dropWhile_head_false {α : Type} {q : α → Bool} :
    ∀ (l : List α) (c : α) (rest : List α), l.dropWhile q = c :: rest → q c = false := by
  intro l
  induction l with
  | nil => intro c rest h; exact absurd h (by simp)
  | cons a l ih =>
    intro c rest h
    rw [List.dropWhile_cons] at h
    by_cases ha : q a = true
    · rw [if_pos ha] at h
      exact ih c rest h
    · rw [if_neg ha] at h
      injection h with h1 h2
      subst h1
      cases hx : q a
      · rfl
      · exact absurd hx ha

/-- A list whose head fails the predicate is unchanged by dropWhile. -/
theorem dropWhile_eq_self_of_head {α : Type} {q : α → Bool} (l : List α)
    (h : ∀ c rest, l = c :: rest → q c = false) : l.dropWhile q = l := by
  cases l with
  | nil => rfl
  | cons c rest =>
    rw [List.dropWhile_cons, if_neg (by rw [h c rest rfl]; simp)]

/-- Left trim is idempotent. -/
theorem trimLeftC_idem (l : Str) : trimLeftC (trimLeftC l) = trimLeftC l := by
  unfold trimLeftC
  exact dropWhile_eq_self_of_head _ (fun c rest h => dropWhile_head_false l c rest h)

/-- Right trim is idempotent. -/
theorem trimRightC_idem (l : Str) : trimRightC (trimRightC l) = trimRightC l := by
  have h : (l.reverse.dropWhile wsB).dropWhile wsB = l.reverse.dropWhile wsB :=
    dropWhile_eq_self_of_head _ (fun c rest hcr => dropWhile_head_false l.reverse c rest hcr)
  show (((l.reverse.dropWhile wsB).reverse).reverse.dropWhile wsB).reverse =
    (l.reverse.dropWhile wsB).reverse
  rw [List.reverse_reverse, h]

/-- The head of a left trim is not whitespace. -/
theorem trimLeftC_head_notws {l : Str} {c : Char} {rest : Str}
    (h : trimLeftC l = c :: rest) : wsB c = false :=
  dropWhile_head_false l c rest h

/-- A list headed by a non-whitespace character is unchanged by left trim. -/
theorem trimLeftC_eq_self {l : Str}
    (h : ∀ c rest, l = c :: rest → wsB c = false) : trimLeftC l = l :=
  dropWhile_eq_self_of_head l h

/-- The all-whitespace test ignores reversal. -/
theorem allWsB_reverse (p : Str) : allWsB p.reverse = allWsB p := by
  unfold allWsB
  exact List.all_reverse

/-- A piece with a non-whitespace character keeps one after left trim. -/
theorem trimLeftC_ne_nil {p : Str} (h : allWsB p = false) : trimLeftC p ≠ [] := by
  intro hc
  unfold trimLeftC at hc
  rw [List.dropWhile_eq_nil_iff] at hc
  rw [show allWsB p = true from List.all_eq_true.2 hc] at h
  simp at h

/-- A piece with a non-whitespace character keeps one after right trim. -/
theorem trimRightC_ne_nil {p : Str} (h : allWsB p = false) : trimRightC p ≠ [] := by
  intro hc
  unfold trimRightC at hc
  rw [List.reverse_eq_nil_iff] at hc
  rw [List.dropWhile_eq_nil_iff] at hc
  have hall : allWsB p.reverse = true := List.all_eq_true.2 hc
  rw [allWsB_reverse] at hall
  rw [hall] at h
  simp at h

/-- An all-whitespace piece right-trims to nothing. -/
theorem trimRightC_allws (p : Str) (h : allWsB p = true) : trimRightC p = [] := by
  unfold trimRightC
  rw [show p.reverse.dropWhile wsB = trimLeftC p.reverse from rfl]
  rw [trimLeftC_allws p.reverse (by rw [allWsB_reverse]; exact h)]
  rfl

/-- The left trim is a suffix of the original. -/
theorem trimLeftC_suffix (p : Str) : trimLeftC p <:+ p :=
  List.dropWhile_suffix wsB

/-- The right trim is a prefix of the original. -/
theorem trimRightC_pref (p : Str) : trimRightC p <+: p := by
  rw [← List.reverse_suffix]
  show (trimRightC p).reverse <:+ p.reverse
  unfold trimRightC
  rw [List.reverse_reverse]
  exact List.dropWhile_suffix wsB

/-- jsTrim yields an infix of the original string. -/
theorem jsTrim_inf (p : Str) : jsTrim p <:+: p := by
  unfold jsTrim
  exact ((trimRightC_pref (trimLeftC p)).isInfix).trans ((trimLeftC_suffix p).isInfix)

/-- Decomposition of a list into its whitespace prefix and its left trim. -/
theorem trimLeftC_decomp (p : Str) :
    p = p.takeWhile wsB ++ trimLeftC p ∧ allWsB (p.takeWhile wsB) = true := by
  constructor
  · exact (List.takeWhile_append_dropWhile wsB p).symm
  · exact List.all_eq_true.2 (fun x hx => List.mem_takeWhile_imp hx)

/-- Decomposition of a list into its right trim and its whitespace suffix. -/
theorem trimRightC_decomp (p : Str) :
    ∃ w, p = trimRightC p ++ w ∧ allWsB w = true := by
  refine ⟨(p.reverse.takeWhile wsB).reverse, ?_, ?_⟩
  · have h : p.reverse.takeWhile wsB ++ p.reverse.dropWhile wsB = p.reverse :=
      List.takeWhile_append_dropWhile wsB p.reverse
    have h2 := congrArg List.reverse h
    rw [List.reverse_append, List.reverse_reverse] at h2
    exact h2.symm
  · rw [allWsB_reverse]
    exact List.all_eq_true.2 (fun x hx => List.mem_takeWhile_imp hx)

/-- Right trim passes over an all-whitespace suffix. -/
theorem trimRightC_append_allws (u v : Str) (h : allWsB v = true) :
    trimRightC (u ++ v) = trimRightC u := by
  show ((u ++ v).reverse.dropWhile wsB).reverse = (u.reverse.dropWhile wsB).reverse
  rw [List.reverse_append]
  rw [show (v.reverse ++ u.reverse).dropWhile wsB = u.reverse.dropWhile wsB from
    trimLeftC_append_allws v.reverse u.reverse (by rw [allWsB_reverse]; exact h)]

/-- Right trim stops inside a suffix containing a non-whitespace character. -/
theorem trimRightC_append_not (u v : Str) (h : allWsB v = false) :
    trimRightC (u ++ v) = u ++ trimRightC v := by
  show ((u ++ v).reverse.dropWhile wsB).reverse = u ++ (v.reverse.dropWhile wsB).reverse
  rw [List.reverse_append]
  rw [show (v.reverse ++ u.reverse).dropWhile wsB = v.reverse.dropWhile wsB ++ u.reverse from
    trimLeftC_append_not v.reverse u.reverse (by rw [allWsB_reverse]; exact h)]
  rw [List.reverse_append, List.reverse_reverse]

/-- jsTrim ignores a prior left trim. -/
theorem jsTrim_trimLeftC (p : Str) : jsTrim (trimLeftC p) = jsTrim p := by
  unfold jsTrim
  rw [trimLeftC_idem]

/-- jsTrim is idempotent. -/
theorem jsTrim_idem (p : Str) : jsTrim (jsTrim p) = jsTrim p := by
  unfold jsTrim
  have h1 : trimLeftC (trimRightC (trimLeftC p)) = trimRightC (trimLeftC p) := by
    apply trimLeftC_eq_self
    intro c rest hcr
    rcases trimRightC_decomp (trimLeftC p) with ⟨w, hw, -⟩
    rw [hcr] at hw
    exact trimLeftC_head_notws (show trimLeftC p = c :: (rest ++ w) by rw [hw]; simp)
  rw [h1, trimRightC_idem]

/-- jsTrim ignores a prior right trim. -/
theorem jsTrim_trimRightC (p : Str) : jsTrim (trimRightC p) = jsTrim p := by
  by_cases hp : allWsB p = true
  · rw [trimRightC_allws p hp]
    show trimRightC (trimLeftC []) = trimRightC (trimLeftC p)
    rw [trimLeftC_allws p hp]
    rfl
  · have hpf : allWsB p = false := by
      cases hx : allWsB p
      · rfl
      · exact absurd hx hp
    have hyf : allWsB (trimLeftC p) = false := by
      cases hy2 : trimLeftC p with
      | nil => exact absurd hy2 (trimLeftC_ne_nil hpf)
      | cons c rest =>
        have hc : wsB c = false := trimLeftC_head_notws hy2
        unfold allWsB
        rw [List.all_cons, hc]
        rfl
    rcases trimLeftC_decomp p with ⟨hdec, hwws⟩
    have hstep : trimRightC p = p.takeWhile wsB ++ trimRightC (trimLeftC p) := by
      have h2 := trimRightC_append_not (p.takeWhile wsB) (trimLeftC p) hyf
      rw [← hdec] at h2
      exact h2
    rw [hstep]
    show trimRightC (trimLeftC (p.takeWhile wsB ++ trimRightC (trimLeftC p))) =
      trimRightC (trimLeftC p)
    rw [trimLeftC_append_allws _ _ hwws]
    exact jsTrim_idem p

/-! ## Separator-freeness is inherited by sublists of a piece -/

/-- A tail of a separator-free string is separator-free. -/
theorem preSep_none_tail (c : Char) (t : Str) (h : preSep (c :: t) = none) :
    preSep t = none := by
  cases t with
  | nil => rfl
  | cons d t2 =>
    rw [show preSep (c :: d :: t2) =
      if c = '\n' ∧ d = '\n' then some ([], t2)
      else (preSep (d :: t2)).map (fun pr => (c :: pr.1, pr.2)) from rfl] at h
    by_cases hcond : c = '\n' ∧ d = '\n'
    · rw [if_pos hcond] at h
      simp at h
    · rw [if_neg hcond] at h
      rcases hx : preSep (d :: t2) with - | pr
      · rfl
      · rw [hx] at h
        simp at h

/-- A prefix of a separator-free string is separator-free. -/
theorem preSep_none_pref (v : Str) : ∀ u : Str, preSep (u ++ v) = none →
    preSep u = none := by
  intro u
  induction u with
  | nil => intro _; rfl
  | cons c u2 ih =>
    intro h
    cases u2 with
    | nil => rfl
    | cons d u3 =>
      rw [show (c :: d :: u3) ++ v = c :: d :: (u3 ++ v) from rfl] at h
      rw [show preSep (c :: d :: (u3 ++ v)) =
        if c = '\n' ∧ d = '\n' then some ([], u3 ++ v)
        else (preSep (d :: (u3 ++ v))).map (fun pr => (c :: pr.1, pr.2)) from rfl] at h
      by_cases hcond : c = '\n' ∧ d = '\n'
      · rw [if_pos hcond] at h
        simp at h
      · rw [if_neg hcond] at h
        have hin : preSep (d :: (u3 ++ v)) = none := by
          rcases hx : preSep (d :: (u3 ++ v)) with - | pr
          · rfl
          · rw [hx] at h
            simp at h
        have h2 : preSep (d :: u3) = none :=
          ih (by rw [show (d :: u3) ++ v = d :: (u3 ++ v) from rfl]; exact hin)
        rw [show preSep (c :: d :: u3) =
          if c = '\n' ∧ d = '\n' then some ([], u3)
          else (preSep (d :: u3)).map (fun pr => (c :: pr.1, pr.2)) from rfl]
        rw [if_neg hcond, h2]
        rfl

/-- A suffix of a separator-free string is separator-free. -/
theorem preSep_none_suf (w : Str) : ∀ u : Str, preSep (u ++ w) = none →
    preSep w = none := by
  intro u
  induction u with
  | nil => intro h; exact h
  | cons c u2 ih =>
    intro h
    exact ih (preSep_none_tail c (u2 ++ w) h)

/-- An infix of a separator-free string is separator-free. -/
theorem preSep_none_inf {x l : Str} (hinf : x <:+: l) (h : preSep l = none) :
    preSep x = none := by
  rcases hinf with ⟨u, v, huv⟩
  rw [← huv] at h
  have hassoc : u ++ (x ++ v) = u ++ x ++ v := (List.append_assoc u x v).symm
  have h2 : preSep (x ++ v) = none :=
    preSep_none_suf (x ++ v) u (by rw [hassoc]; exact h)
  exact preSep_none_pref v x h2

/-! ## Transfer of end characters along prefixes and suffixes -/

/-- A nonempty suffix has the last element of the whole list. -/
theorem getLast?_suffix {t l : Str} (h : t <:+ l) (ht : t ≠ []) :
    t.getLast? = l.getLast? := by
  rcases h with ⟨u, hu⟩
  rcases List.eq_nil_or_concat t with h2 | ⟨t2, a, h2⟩
  · exact absurd h2 ht
  · rw [List.concat_eq_append] at h2
    subst h2
    rw [← hu]
    rw [List.getLast?_concat]
    rw [show u ++ (t2 ++ [a]) = (u ++ t2) ++ [a] from (List.append_assoc u t2 [a]).symm]
    rw [List.getLast?_concat]

/-- A nonempty prefix has the head of the whole list. -/
theorem head?_pref {t l : Str} (h : t <+: l) (ht : t ≠ []) :
    t.head? = l.head? := by
  rcases h with ⟨v, hv⟩
  rw [← hv]
  cases t with
  | nil => exact absurd rfl ht
  | cons c t2 => rfl

/-! ## Preservation of the pieces invariant by the trim pipeline -/

/-- The empty list vacuously satisfies the pieces invariant. -/
theorem PiecesOk_nil : PiecesOk [] := by
  intro pre x suf hdec
  cases pre with
  | nil => exact absurd hdec (by simp)
  | cons a pre2 => exact absurd hdec (by simp)

/-- Replacing the head of a valid piece list by a separator-free piece that
respects the trailing-newline condition keeps the invariant. -/
theorem PiecesOk_replaceHead {p x : Str} {tail : List Str}
    (hok : PiecesOk (p :: tail))
    (hnone : preSep x = none)
    (hlast : tail ≠ [] → x.getLast? ≠ some '\n') :
    PiecesOk (x :: tail) := by
  intro pre y suf hdec
  rcases cons_decomp hdec with ⟨hpre, hy, hsuf⟩ | ⟨pre2, hpre, hrest⟩
  · subst hy
    refine ⟨hnone, ?_, ?_, ?_⟩
    · intro hs
      rw [hsuf] at hs
      exact hlast hs
    · intro hp2
      exact absurd hpre hp2
    · intro hp2 _
      exact absurd hpre hp2
  · rcases hok (p :: pre2) y suf (by simp [hrest]) with ⟨h1, h2, h3, h4⟩
    exact ⟨h1, h2, fun _ => h3 (by simp), fun _ hs => h4 (by simp) hs⟩

/-- Replacing the last element of a valid piece list by a separator-free
piece that respects the leading-newline condition keeps the invariant. -/
theorem PiecesOk_replaceLast {p x : Str} {init : List Str}
    (hok : PiecesOk (init ++ [p]))
    (hnone : preSep x = none)
    (hhead : init ≠ [] → x.head? ≠ some '\n') :
    PiecesOk (init ++ [x]) := by
  intro pre y suf hdec
  rcases List.eq_nil_or_concat suf with hs | ⟨s2, a, hs⟩
  · subst hs
    rcases List.append_inj' hdec rfl with ⟨hpre, hxy⟩
    injection hxy with hxy2
    subst hxy2
    refine ⟨hnone, ?_, ?_, ?_⟩
    · intro hcon
      exact absurd rfl hcon
    · intro hp2
      exact hhead (by rw [hpre]; exact hp2)
    · intro _ hcon
      exact absurd rfl hcon
  · rw [List.concat_eq_append] at hs
    subst hs
    have hdec2 : init ++ [x] = (pre ++ y :: s2) ++ [a] := by
      rw [hdec]
      simp
    rcases List.append_inj' hdec2 rfl with ⟨hinit, hxa⟩
    rcases hok pre y (s2 ++ [p]) (by rw [hinit]; simp) with ⟨h1, h2, h3, h4⟩
    refine ⟨h1, ?_, h3, ?_⟩
    · intro _
      exact h2 (by simp)
    · intro hp2 _
      exact h4 hp2 (by simp)

/-- Dropping trailing pieces yields a sublist. -/
theorem rdropAllWs_sublist (l : List Str) : (rdropAllWs l).Sublist l := by
  unfold rdropAllWs
  have h : (l.reverse.dropWhile allWsB).Sublist l.reverse :=
    (List.dropWhile_suffix allWsB).sublist
  have h2 := h.reverse
  rwa [List.reverse_reverse] at h2

/-- The last survivor of the trailing drop fails the predicate. -/
theorem rdropAllWs_last_false {init : List Str} {p : Str} {l : List Str}
    (h : rdropAllWs l = init ++ [p]) : allWsB p = false := by
  unfold rdropAllWs at h
  have h3 := congrArg List.reverse h
  rw [List.reverse_reverse, List.reverse_append] at h3
  have h2 : l.reverse.dropWhile allWsB = p :: init.reverse := by simpa using h3
  exact dropWhile_head_false l.reverse p init.reverse h2

/-- Modifying the last element of a concat. -/
theorem modifyLastF_concat (f : Str → Str) (init : List Str) (p : Str) :
    modifyLastF f (init ++ [p]) = init ++ [f p] := by
  unfold modifyLastF
  rw [List.reverse_append]
  show (f p :: init.reverse).reverse = init ++ [f p]
  rw [List.reverse_cons, List.reverse_reverse]

/-- The pieces invariant survives the whole trimming pipeline. -/
theorem PiecesOk_trimPieces {ps : List Str} (hok : PiecesOk ps) :
    PiecesOk (trimPieces ps) := by
  have hok1 : PiecesOk (ps.dropWhile allWsB) :=
    PiecesOk_sublist (List.dropWhile_suffix allWsB).sublist hok
  have hok2 : PiecesOk ((ps.dropWhile allWsB).modifyHead trimLeftC) := by
    rcases hd : ps.dropWhile allWsB with _ | ⟨p, tail⟩
    · exact PiecesOk_nil
    · rw [hd] at hok1
      show PiecesOk (trimLeftC p :: tail)
      have hpw : allWsB p = false := dropWhile_head_false ps p tail hd
      apply PiecesOk_replaceHead hok1
      · exact preSep_none_inf (trimLeftC_suffix p).isInfix (hok1 [] p tail rfl).1
      · intro ht
        rw [getLast?_suffix (trimLeftC_suffix p) (trimLeftC_ne_nil hpw)]
        exact (hok1 [] p tail rfl).2.1 ht
  have hok3 : PiecesOk (rdropAllWs ((ps.dropWhile allWsB).modifyHead trimLeftC)) :=
    PiecesOk_sublist (rdropAllWs_sublist _) hok2
  unfold trimPieces
  rcases List.eq_nil_or_concat (rdropAllWs ((ps.dropWhile allWsB).modifyHead trimLeftC))
    with hd3 | ⟨init, p3, hd3⟩
  · rw [hd3]
    exact PiecesOk_nil
  · rw [List.concat_eq_append] at hd3
    rw [hd3, modifyLastF_concat]
    rw [hd3] at hok3
    have hp3w : allWsB p3 = false := rdropAllWs_last_false hd3
    apply PiecesOk_replaceLast hok3
    · exact preSep_none_inf (trimRightC_pref p3).isInfix (hok3 init p3 [] rfl).1
    · intro hinitne
      rw [head?_pref (trimRightC_pref p3) (trimRightC_ne_nil hp3w)]
      exact (hok3 init p3 [] rfl).2.2.1 hinitne

/-! ## Where the trimmed pieces come from -/

/-- Membership in a head-modified list. -/
theorem mem_modifyHead {g : Str → Str} {x : Str} : ∀ {l : List Str},
    x ∈ l.modifyHead g → (∃ p l2, l = p :: l2 ∧ x = g p) ∨ x ∈ l := by
  intro l hx
  cases l with
  | nil => exact Or.inr hx
  | cons p l2 =>
    have hx2 : x ∈ g p :: l2 := hx
    rcases List.mem_cons.1 hx2 with h | h
    · exact Or.inl ⟨p, l2, rfl, h⟩
    · exact Or.inr (List.mem_cons_of_mem p h)

/-- Membership in a last-modified list. -/
theorem mem_modifyLastF {f : Str → Str} {x : Str} {l : List Str}
    (hx : x ∈ modifyLastF f l) : (∃ p, p ∈ l ∧ x = f p) ∨ x ∈ l := by
  unfold modifyLastF at hx
  rw [List.mem_reverse] at hx
  rcases mem_modifyHead hx with ⟨p, l2, hdec, hxp⟩ | h
  · refine Or.inl ⟨p, ?_, hxp⟩
    have hp2 : p ∈ l.reverse := by
      rw [hdec]
      exact List.mem_cons_self p l2
    rwa [List.mem_reverse] at hp2
  · exact Or.inr (List.mem_reverse.1 h)

/-- Members of the trailing drop are members of the list. -/
theorem rdropAllWs_mem {x : Str} {l : List Str} (hx : x ∈ rdropAllWs l) : x ∈ l :=
  (rdropAllWs_sublist l).subset hx

/-- A member of the head-trimming stage is an original piece or the left
trim of one. -/
theorem trimHeadStage_mem {x : Str} {ps : List Str}
    (hx : x ∈ (ps.dropWhile allWsB).modifyHead trimLeftC) :
    ∃ p, p ∈ ps ∧ (x = p ∨ x = trimLeftC p) := by
  rcases mem_modifyHead hx with ⟨p, l2, hdec, hxp⟩ | h
  · refine ⟨p, ?_, Or.inr hxp⟩
    have hp : p ∈ ps.dropWhile allWsB := by
      rw [hdec]
      exact List.mem_cons_self p l2
    exact (List.dropWhile_suffix allWsB).sublist.subset hp
  · exact ⟨x, (List.dropWhile_suffix allWsB).sublist.subset h, Or.inl rfl⟩

/-- Every trimmed piece is an infix of an original piece with the same
jsTrim value. -/
theorem trimPieces_elem {x : Str} {ps : List Str} (hx : x ∈ trimPieces ps) :
    ∃ p, p ∈ ps ∧ x <:+: p ∧ jsTrim x = jsTrim p := by
  unfold trimPieces at hx
  rcases mem_modifyLastF hx with ⟨p1, hp1, hxp1⟩ | hx1
  · rcases trimHeadStage_mem (rdropAllWs_mem hp1) with ⟨p, hp, hcase⟩
    rcases hcase with hc | hc
    · subst hc
      subst hxp1
      exact ⟨p1, hp, (trimRightC_pref p1).isInfix, jsTrim_trimRightC p1⟩
    · subst hxp1
      rw [hc]
      exact ⟨p, hp, jsTrim_inf p, jsTrim_idem p⟩
  · rcases trimHeadStage_mem (rdropAllWs_mem hx1) with ⟨p, hp, hcase⟩
    rcases hcase with hc | hc
    · refine ⟨p, hp, ?_, ?_⟩
      · rw [hc]
      · rw [hc]
    · refine ⟨p, hp, ?_, ?_⟩
      · rw [hc]
        exact (trimLeftC_suffix p).isInfix
      · rw [hc]
        exact jsTrim_trimLeftC p

/-! ## The substring test and the token bookkeeping of the scrub -/

/-- The boolean substring test agrees with the infix relation. -/
theorem isInfixB_iff (pat : Str) : ∀ s : Str, isInfixB pat s = true ↔ pat <:+: s := by
  intro s
  induction s with
  | nil =>
    show pat.isEmpty = true ↔ pat <:+: []
    constructor
    · intro h
      rw [List.isEmpty_iff] at h
      subst h
      exact List.infix_refl []
    · intro h
      rw [List.isEmpty_iff]
      rcases h with ⟨u, v, huv⟩
      rcases List.append_eq_nil.1 huv with ⟨h1, -⟩
      rcases List.append_eq_nil.1 h1 with ⟨-, h2⟩
      exact h2
  | cons c rest ih =>
    show (pat.isPrefixOf (c :: rest) || isInfixB pat rest) = true ↔ pat <:+: c :: rest
    rw [Bool.or_eq_true]
    constructor
    · rintro (h | h)
      · exact (List.isPrefixOf_iff_prefix.1 h).isInfix
      · exact (ih.1 h).trans (List.suffix_cons c rest).isInfix
    · intro h
      rcases h with ⟨u, v, huv⟩
      cases u with
      | nil =>
        left
        rw [List.isPrefixOf_iff_prefix]
        exact ⟨v, by simpa using huv⟩
      | cons a u2 =>
        right
        apply ih.2
        refine ⟨u2, v, ?_⟩
        have h2 : a :: (u2 ++ pat ++ v) = c :: rest := by simpa using huv
        injection h2 with h3 h4

/-- Membership in the deduplication accumulator. -/
theorem mem_dedupF : ∀ (l seen : List Str) (x : Str),
    x ∈ dedupF seen l ↔ x ∈ l ∧ x ∉ seen := by
  intro l
  induction l with
  | nil =>
    intro seen x
    simp [dedupF]
  | cons y l ih =>
    intro seen x
    show x ∈ (if seen.contains y then dedupF seen l else y :: dedupF (y :: seen) l) ↔ _
    by_cases hy : seen.contains y = true
    · rw [if_pos hy, ih seen x]
      constructor
      · rintro ⟨hxl, hxs⟩
        exact ⟨List.mem_cons_of_mem y hxl, hxs⟩
      · rintro ⟨hxl, hxs⟩
        rcases List.mem_cons.1 hxl with hxy | hxl2
        · subst hxy
          exact absurd (show x ∈ seen by simpa using hy) hxs
        · exact ⟨hxl2, hxs⟩
    · rw [if_neg hy]
      constructor
      · intro hx
        rcases List.mem_cons.1 hx with hxy | hx2
        · subst hxy
          refine ⟨List.mem_cons_self x l, ?_⟩
          intro hxs
          exact hy (by simpa using hxs)
        · rcases (ih (y :: seen) x).1 hx2 with ⟨hxl, hxs⟩
          refine ⟨List.mem_cons_of_mem y hxl, ?_⟩
          intro hmem
          exact hxs (List.mem_cons_of_mem y hmem)
      · rintro ⟨hxl, hxs⟩
        rcases List.mem_cons.1 hxl with hxy | hxl2
        · subst hxy
          exact List.mem_cons_self x (dedupF (x :: seen) l)
        · by_cases hxy2 : x = y
          · subst hxy2
            exact List.mem_cons_self x (dedupF (x :: seen) l)
          · apply List.mem_cons_of_mem
            apply (ih (y :: seen) x).2
            refine ⟨hxl2, ?_⟩
            intro hmem
            rcases List.mem_cons.1 hmem with h | h
            · exact hxy2 h
            · exact hxs h

/-- The missing-list push keeps existing entries. -/
theorem mem_foldl_pushMissing_left {x : Str} : ∀ (adds ms : List Str), x ∈ ms →
    x ∈ adds.foldl pushMissing ms := by
  intro adds
  induction adds with
  | nil => intro ms h; exact h
  | cons a adds ih =>
    intro ms h
    show x ∈ adds.foldl pushMissing (pushMissing ms a)
    apply ih
    unfold pushMissing
    by_cases hc : ms.contains a = true
    · rw [if_pos hc]
      exact h
    · rw [if_neg hc]
      exact List.mem_append_left [a] h

/-- Every pushed entry ends up in the missing list. -/
theorem mem_foldl_pushMissing_adds {x : Str} : ∀ (adds ms : List Str), x ∈ adds →
    x ∈ adds.foldl pushMissing ms := by
  intro adds
  induction adds with
  | nil =>
    intro ms h
    exact absurd h (by simp)
  | cons a adds ih =>
    intro ms h
    rcases List.mem_cons.1 h with h2 | h2
    · subst h2
      show x ∈ adds.foldl pushMissing (pushMissing ms x)
      apply mem_foldl_pushMissing_left
      unfold pushMissing
      by_cases hc : ms.contains x = true
      · rw [if_pos hc]
        simpa using hc
      · rw [if_neg hc]
        exact List.mem_append_right ms (List.mem_cons_self x [])
    · exact ih (pushMissing ms a) h2

/-- Pushing only entries already present does nothing. -/
theorem foldl_pushMissing_noop : ∀ (adds ms : List Str), (∀ a, a ∈ adds → a ∈ ms) →
    adds.foldl pushMissing ms = ms := by
  intro adds
  induction adds with
  | nil => intro ms _; rfl
  | cons a adds ih =>
    intro ms h
    show adds.foldl pushMissing (pushMissing ms a) = ms
    have ha : pushMissing ms a = ms := by
      unfold pushMissing
      rw [if_pos (by simpa using h a (List.mem_cons_self a adds))]
    rw [ha]
    exact ih ms (fun b hb => h b (List.mem_cons_of_mem a hb))

/-- The replacement sentence of a fully scrubbed answer contains no
file-like token. -/
theorem scanToks_scrubbedEmpty : scanToks scrubbedEmptyAnswer = [] := by decide

/-- Every file-like token of the scrubbed answer already occurs in the
original answer. -/
theorem scanToks_scrubJoined_subset (avail : List Str) (t : Str) {tok : Str}
    (h : tok ∈ scanToks (scrubJoined avail t)) : tok ∈ scanToks t := by
  unfold scrubJoined at h
  rw [scanToks_jsTrim, scanToks_joinSep, List.mem_flatten] at h
  rcases h with ⟨l, hl, htok⟩
  rw [List.mem_map] at hl
  rcases hl with ⟨p, hp, hlp⟩
  have hp2 : p ∈ splitParas t := (List.filter_sublist _).subset hp
  rw [← scanToks_splitParas_flatten t.length t (le_refl t.length)]
  rw [List.mem_flatten]
  refine ⟨l, ?_, htok⟩
  rw [List.mem_map]
  exact ⟨p, hp2, hlp⟩

/-- An ungrounded token of the scrubbed answer was already ungrounded in
the original answer. -/
theorem unknownOf_scrubJoined_subset (avail : List Str) (t : Str) {v : Str}
    (hv : v ∈ unknownOf avail (scrubJoined avail t)) : v ∈ unknownOf avail t := by
  unfold unknownOf at hv ⊢
  rw [List.mem_filter] at hv ⊢
  rcases hv with ⟨hvd, hvc⟩
  refine ⟨?_, hvc⟩
  rw [mem_dedupF] at hvd ⊢
  exact ⟨scanToks_scrubJoined_subset avail t hvd.1, by simp⟩

/-! ## Branch characterizations of the scrub step -/

/-- An empty answer passes through the scrub untouched. -/
theorem scrubStep_of_empty (avail : List Str) (st : ScrubSt)
    (h : st.answer.getD [] = []) : scrubStep avail st = st := by
  unfold scrubStep
  dsimp only
  rw [if_pos h]

/-- With no ungrounded token the scrub is the identity. -/
theorem scrubStep_of_no_unknown (avail : List Str) (st : ScrubSt)
    (h : unknownOf avail (st.answer.getD []) = []) : scrubStep avail st = st := by
  unfold scrubStep
  dsimp only
  by_cases h1 : st.answer.getD [] = []
  · rw [if_pos h1]
  · rw [if_neg h1, if_pos h]

/-- The effect of a scrub pass that found ungrounded tokens. -/
theorem scrubStep_main (avail : List Str) (st : ScrubSt)
    (h1 : st.answer.getD [] ≠ []) (h2 : unknownOf avail (st.answer.getD []) ≠ []) :
    scrubStep avail st =
      { answer := some (if scrubJoined avail (st.answer.getD []) = []
          then scrubbedEmptyAnswer else scrubJoined avail (st.answer.getD [])),
        missing := ((unknownOf avail (st.answer.getD [])).map stripExt).foldl
          pushMissing st.missing,
        cannot_answer := if scrubJoined avail (st.answer.getD []) = [] then false
          else st.cannot_answer,
        reason := if st.reason = [] then scrubReasonNote else st.reason } := by
  unfold scrubStep
  dsimp only
  rw [if_neg h1, if_neg h2]

/-- A scrub pass that found ungrounded tokens but kept some prose. -/
theorem scrubStep_main_ne (avail : List Str) (st : ScrubSt)
    (h1 : st.answer.getD [] ≠ []) (h2 : unknownOf avail (st.answer.getD []) ≠ [])
    (h3 : scrubJoined avail (st.answer.getD []) ≠ []) :
    scrubStep avail st =
      { answer := some (scrubJoined avail (st.answer.getD [])),
        missing := ((unknownOf avail (st.answer.getD [])).map stripExt).foldl
          pushMissing st.missing,
        cannot_answer := st.cannot_answer,
        reason := if st.reason = [] then scrubReasonNote else st.reason } := by
  rw [scrubStep_main avail st h1 h2]
  rw [if_neg h3, if_neg h3]

/-- A scrub pass that dropped every paragraph. -/
theorem scrubStep_main_empty (avail : List Str) (st : ScrubSt)
    (h1 : st.answer.getD [] ≠ []) (h2 : unknownOf avail (st.answer.getD []) ≠ [])
    (h3 : scrubJoined avail (st.answer.getD []) = []) :
    scrubStep avail st =
      { answer := some scrubbedEmptyAnswer,
        missing := ((unknownOf avail (st.answer.getD [])).map stripExt).foldl
          pushMissing st.missing,
        cannot_answer := false,
        reason := if st.reason = [] then scrubReasonNote else st.reason } := by
  rw [scrubStep_main avail st h1 h2]
  rw [if_pos h3, if_pos h3]

/-- Scrubbing an already-scrubbed answer keeps every paragraph and re-joins
to the same text. -/
theorem scrubJoined_scrubJoined (avail : List Str) (t : Str)
    (h3 : scrubJoined avail t ≠ []) :
    scrubJoined avail (scrubJoined avail t) = scrubJoined avail t := by
  have hkept_ok : PiecesOk ((splitParas t).filter (keepPara (unknownOf avail t) avail)) :=
    PiecesOk_sublist (List.filter_sublist (splitParas t))
      (PiecesOk_splitParas t.length t (le_refl t.length))
  have hTP : scrubJoined avail t =
      joinSep (trimPieces ((splitParas t).filter (keepPara (unknownOf avail t) avail))) :=
    jsTrim_joinSep _
  have htp_ok : PiecesOk
      (trimPieces ((splitParas t).filter (keepPara (unknownOf avail t) avail))) :=
    PiecesOk_trimPieces hkept_ok
  have htp_ne : trimPieces ((splitParas t).filter (keepPara (unknownOf avail t) avail)) ≠ [] := by
    intro hc
    rw [hc] at hTP
    exact h3 hTP
  have hsp : splitParas (scrubJoined avail t) =
      trimPieces ((splitParas t).filter (keepPara (unknownOf avail t) avail)) := by
    rw [hTP]
    exact splitParas_joinSep _ htp_ne htp_ok
  have hkeep : ∀ x ∈ trimPieces ((splitParas t).filter (keepPara (unknownOf avail t) avail)),
      keepPara (unknownOf avail (scrubJoined avail t)) avail x = true := by
    intro x hx
    rcases trimPieces_elem hx with ⟨p, hp, hinf, hjt⟩
    have hpk : keepPara (unknownOf avail t) avail p = true := (List.mem_filter.1 hp).2
    unfold keepPara at hpk ⊢
    rw [Bool.or_eq_true] at hpk ⊢
    by_cases hca : avail.contains (jsTrim p) = true
    · right
      rw [hjt]
      exact hca
    · rcases hpk with hfirst | hsecond
      · left
        rw [Bool.not_eq_true'] at hfirst ⊢
        rw [List.any_eq_false] at hfirst ⊢
        intro v hv
        intro hvb
        have hvx : v <:+: x := (isInfixB_iff v x).1 hvb
        have hvp : v <:+: p := hvx.trans hinf
        have hvinf : isInfixB v p = true := (isInfixB_iff v p).2 hvp
        exact hfirst v (unknownOf_scrubJoined_subset avail t hv) hvinf
      · exact absurd hsecond hca
  have hfilter : (splitParas (scrubJoined avail t)).filter
      (keepPara (unknownOf avail (scrubJoined avail t)) avail) =
      trimPieces ((splitParas t).filter (keepPara (unknownOf avail t) avail)) := by
    rw [hsp]
    exact List.filter_eq_self.2 hkeep
  show jsTrim (joinSep ((splitParas (scrubJoined avail t)).filter
      (keepPara (unknownOf avail (scrubJoined avail t)) avail))) = scrubJoined avail t
  rw [hfilter, ← hTP]
  show jsTrim (jsTrim (joinSep ((splitParas t).filter (keepPara (unknownOf avail t) avail)))) =
    jsTrim (joinSep ((splitParas t).filter (keepPara (unknownOf avail t) avail)))
  exact jsTrim_idem _

/-- C6: the prose hallucination scrub is idempotent: a second scrub pass over
the result of one pass against the same grounded path set changes nothing —
neither the answer, nor the missing list, nor the cannot_answer flag, nor
the reason. -/
theorem c6_scrub_idempotent (avail : List Str) (st : ScrubSt) :
    scrubStep avail (scrubStep avail st) = scrubStep avail st := by
  by_cases h1 : st.answer.getD [] = []
  · rw [scrubStep_of_empty avail st h1, scrubStep_of_empty avail st h1]
  · by_cases h2 : unknownOf avail (st.answer.getD []) = []
    · rw [scrubStep_of_no_unknown avail st h2, scrubStep_of_no_unknown avail st h2]
    · by_cases h3 : scrubJoined avail (st.answer.getD []) = []
      · rw [scrubStep_main_empty avail st h1 h2 h3]
        apply scrubStep_of_no_unknown
        show unknownOf avail scrubbedEmptyAnswer = []
        unfold unknownOf
        rw [scanToks_scrubbedEmpty]
        rfl
      · have hJJ := scrubJoined_scrubJoined avail (st.answer.getD []) h3
        by_cases h4 : unknownOf avail (scrubJoined avail (st.answer.getD [])) = []
        · rw [scrubStep_main_ne avail st h1 h2 h3]
          apply scrubStep_of_no_unknown
          exact h4
        · have h1b : (scrubStep avail st).answer.getD [] ≠ [] := by
            rw [scrubStep_main_ne avail st h1 h2 h3]
            exact h3
          have h2b : unknownOf avail ((scrubStep avail st).answer.getD []) ≠ [] := by
            rw [scrubStep_main_ne avail st h1 h2 h3]
            exact h4
          have h3b : scrubJoined avail ((scrubStep avail st).answer.getD []) ≠ [] := by
            rw [scrubStep_main_ne avail st h1 h2 h3]
            show scrubJoined avail (scrubJoined avail (st.answer.getD [])) ≠ []
            rw [hJJ]
            exact h3
          rw [scrubStep_main_ne avail (scrubStep avail st) h1b h2b h3b]
          rw [scrubStep_main_ne avail st h1 h2 h3]
          simp only [Option.getD_some]
          congr 1
          · rw [hJJ]
          · apply foldl_pushMissing_noop
            intro a ha
            rw [List.mem_map] at ha
            rcases ha with ⟨v, hv, hva⟩
            apply mem_foldl_pushMissing_adds
            rw [List.mem_map]
            exact ⟨v, unknownOf_scrubJoined_subset avail (st.answer.getD []) hv, hva⟩
          · have hR : (if st.reason = [] then scrubReasonNote else st.reason) ≠ [] := by
              by_cases hr : st.reason = []
              · rw [if_pos hr]
                intro hc
                exact absurd hc (by decide)
              · rw [if_neg hr]
                exact hr
            rw [if_neg hR]

end RepoStack
